import Mathlib

/-!
# Verification of the shlesha hub-and-spoke transliteration core

The repository's Python harness (benchmarks, property tests, and the CLI
wrapper `shlesha_wrapper.py`) exercises a Rust conversion engine whose
sources are not part of this tree.  Following the specification, the core
(matching engines, tokenizer, hub bridge, orchestrator, path optimizer) is
modelled here from the spec's own description; the CLI wrapper is embedded
directly from `src/shlesha_wrapper.py`.

Strings are modelled as `List Char` (one element per Unicode codepoint).
-/

namespace Shlesha

/-! ## Matching engines (spec §4.4)

Shared contract: `lookup(candidate_text_window, mapping_table) ->
(matched_output, consumed_length) | no_match`.  A mapping table is an
association list from grapheme patterns to replacement strings; per the
data model (§3, glossary) a grapheme is one **or more** codepoints, so all
engines ignore an (ill-formed) empty pattern. -/

abbrev Pattern := List Char
abbrev MapTable := List (Pattern × String)

/-- `isPfx p w` is true when pattern `p` is a prefix of window `w`. -/
def isPfx : Pattern → List Char → Bool
  | [], _ => true
  | _ :: _, [] => false
  | a :: p, b :: w => a == b && isPfx p w

/-- Direct key lookup, as performed by a hash map built from the
association list (first binding of a key wins; keys are unique in a real
mapping table). -/
def lookupKey (table : MapTable) (k : Pattern) : Option String :=
  (table.find? (fun e => e.1 == k)).map (·.2)

/-- Length of the longest pattern in the table. -/
def maxPatLen (table : MapTable) : Nat :=
  table.foldl (fun m e => max m e.1.length) 0

/-- Modelled from the spec: hash-table strategy core loop — try candidate
windows longest-to-shortest, direct key lookup for each. -/
def fxGo (table : MapTable) (window : List Char) : Nat → Option (String × Nat)
  | 0 => none
  | n + 1 =>
    match lookupKey table (window.take (n + 1)) with
    | some v => some (v, n + 1)
    | none => fxGo table window n

/-- Modelled from the spec (§4.4a): the `fx_hashmap` strategy.  Candidate
windows are bounded by the window itself and by the longest pattern
registered in the mapping. -/
def fxHashmapLookup (table : MapTable) (window : List Char) : Option (String × Nat) :=
  fxGo table window (min (maxPatLen table) window.length)

/-- Trie node: optional accepting output plus labelled children. -/
inductive Trie where
  | node : Option String → List (Char × Trie) → Trie

/-- The empty trie. -/
def Trie.empty : Trie := .node none []

/-- Child lookup in a trie node's edge list. -/
def childGet (ch : List (Char × Trie)) (c : Char) : Option Trie :=
  (ch.find? (fun e => e.1 == c)).map (·.2)

/-- Replace (or add) the child for a given edge label. -/
def childSet : List (Char × Trie) → Char → Trie → List (Char × Trie)
  | [], c, t => [(c, t)]
  | (d, u) :: tail, c, t =>
    if d == c then (d, t) :: tail else (d, u) :: childSet tail c t

/-- Insert a pattern into the trie; an already-present pattern keeps its
first output (mapping tables bind each key once). -/
def Trie.insert : Trie → Pattern → String → Trie
  | .node out ch, [], v => .node (out.orElse fun _ => some v) ch
  | .node out ch, c :: rest, v =>
    .node out (childSet ch c (((childGet ch c).getD Trie.empty).insert rest v))

/-- Modelled from the spec (§4.4b): build the multi-pattern automaton over
all graphemes of the mapping once.  Failure links only matter for the
linear whole-text scan; for the per-window lookup contract the automaton
behaves as its underlying trie. -/
def Trie.build (table : MapTable) : Trie :=
  table.foldl (fun t e => if e.1.isEmpty then t else t.insert e.1 e.2) Trie.empty

/-- Walk the automaton from the current window, always preferring the
longest match ending at the scan position: the deepest accepting node
visited wins. -/
def Trie.walk : Trie → List Char → Nat → Option (String × Nat) → Option (String × Nat)
  | .node out _, [], depth, best =>
    match out with
    | some v => some (v, depth)
    | none => best
  | .node out ch, c :: rest, depth, best =>
    let best' := match out with
      | some v => some (v, depth)
      | none => best
    match childGet ch c with
    | some t => t.walk rest (depth + 1) best'
    | none => best'

/-- Modelled from the spec (§4.4b): the `aho_corasick` strategy via the
shared lookup contract. -/
def ahoCorasickLookup (table : MapTable) (window : List Char) : Option (String × Nat) :=
  (Trie.build table).walk window 0 none

/-- Prefix-index bucket: the table entries whose pattern starts with the
given codepoint. -/
def bucket (table : MapTable) (c : Char) : MapTable :=
  table.filter (fun e => e.1.headI == c && !e.1.isEmpty)

/-- Stable insertion into a list sorted by decreasing pattern length. -/
def insertDesc (e : Pattern × String) : MapTable → MapTable
  | [] => [e]
  | f :: rest =>
    if e.1.length ≤ f.1.length then f :: insertDesc e rest else e :: f :: rest

/-- Stable sort by decreasing pattern length. -/
def sortDesc : MapTable → MapTable
  | [] => []
  | e :: rest => insertDesc e (sortDesc rest)

/-- Modelled from the spec (§4.4c): the `fast_lookup` strategy — partition
graphemes by first codepoint, then linearly scan only the matching bucket,
longest candidate first. -/
def fastLookup (table : MapTable) (window : List Char) : Option (String × Nat) :=
  match window with
  | [] => none
  | c :: _ =>
    ((sortDesc (bucket table c)).find? (fun e => isPfx e.1 window)).map
      (fun e => (e.2, e.1.length))

/-- Exact pattern lookup in a trie. -/
def Trie.find : Trie → Pattern → Option String
  | .node out _, [] => out
  | .node _ ch, c :: rest =>
    match childGet ch c with
    | some t => t.find rest
    | none => none

/-- Longest-prefix search in a trie, with the matched depth. -/
def Trie.bestFind : Trie → List Char → Option (String × Nat)
  | .node out _, [] => out.map (fun v => (v, 0))
  | .node out ch, c :: rest =>
    let deeper : Option (String × Nat) :=
      match childGet ch c with
      | some t => (t.bestFind rest).map (fun r => (r.1, r.2 + 1))
      | none => none
    match deeper with
    | some r => some r
    | none => out.map (fun v => (v, 0))

/-! ## The Python CLI wrapper (`src/shlesha_wrapper.py`)

`Transliterator.transliterate` shells out to the Rust CLI.  The subprocess
interaction is abstracted as the outcome that the `subprocess.run` call
would produce if executed: it either raises (any exception, including a
timeout) or completes with a return code and captured stdout. -/

namespace Wrapper

/-- Outcome of the underlying `subprocess.run` call. -/
inductive CliOutcome where
  | raised : CliOutcome
  | completed : Int → String → CliOutcome
  deriving DecidableEq

/-- Characters stripped by Python's `str.strip()` — the codepoints for
which `str.isspace()` holds: U+0009–U+000D, U+001C–U+001F, space, NEL
(U+0085), NBSP (U+00A0), Ogham space mark (U+1680), U+2000–U+200A, line
and paragraph separators (U+2028, U+2029), narrow NBSP (U+202F), medium
mathematical space (U+205F) and ideographic space (U+3000). -/
def isPyWs (c : Char) : Bool :=
  decide ((9 ≤ c.toNat ∧ c.toNat ≤ 13) ∨ (28 ≤ c.toNat ∧ c.toNat ≤ 31) ∨
    c.toNat = 32 ∨ c.toNat = 133 ∨ c.toNat = 160 ∨ c.toNat = 5760 ∨
    (8192 ≤ c.toNat ∧ c.toNat ≤ 8202) ∨ c.toNat = 8232 ∨ c.toNat = 8233 ∨
    c.toNat = 8239 ∨ c.toNat = 8287 ∨ c.toNat = 12288)

/-- Python `text.strip()` — drop leading and trailing whitespace. -/
def pyStrip (s : String) : String :=
  String.mk (((s.toList.dropWhile isPyWs).reverse.dropWhile isPyWs).reverse)

/-- `not text.strip()` in the wrapper: true when every character is
whitespace (in particular for the empty string). -/
def isBlank (s : String) : Bool :=
  s.toList.all isPyWs

/-- Embedded from `src/shlesha_wrapper.py` lines 57–82
(`Transliterator.transliterate`).  Returns the produced string together
with whether the CLI subprocess was invoked at all. -/
def transliterate (text : String) (cli : CliOutcome) : String × Bool :=
  if isBlank text then (text, false)
  else
    match cli with
    | .raised => (text, true)
    | .completed rc out => if rc = 0 then (pyStrip out, true) else (text, true)

end Wrapper


/-! ## The conversion core, modelled from the spec (§§2–4, 6, 7)

The Rust engine is not part of this tree; every definition below is
modelled from the specification's description of the hub-and-spoke core:
schema model (§3), greedy tokenizer with inherent-vowel resolution (§4.2),
hub bridge (§4.3), renderer/orchestrator (§4.6), path optimizer and
optimization profiles (§4.5, §6). -/

/-- Script family (spec §3). -/
inductive Family where
  | indic : Family
  | roman : Family
  deriving DecidableEq

/-- Grapheme/token class (spec §3). -/
inductive GClass where
  | consonant : GClass
  | vowel : GClass
  | vowelSign : GClass
  | virama : GClass
  | mark : GClass
  | other : GClass
  deriving DecidableEq

/-- One row of a script's ordered grapheme table (spec §3). -/
structure Entry where
  grapheme : List Char
  phoneme : String
  cls : GClass
  deriving DecidableEq

/-- Modelled from the spec (§3): a script schema — canonical name, family,
alias set and ordered grapheme table. -/
structure ScriptSchema where
  id : String
  family : Family
  aliases : List String
  table : List Entry
  deriving DecidableEq

/-- A token produced by the tokenizer (spec §3). -/
structure Token where
  cls : GClass
  text : List Char
  phoneme : Option String
  deriving DecidableEq

/-- Greedy longest candidate: the entry with the longest (nonempty)
grapheme prefixing the text; the first such entry wins ties. -/
def longestEntry : List Entry → List Char → Option Entry
  | [], _ => none
  | e :: rest, text =>
    let best := longestEntry rest text
    if isPfx e.grapheme text && decide (0 < e.grapheme.length) &&
        (match best with
         | none => true
         | some b => decide (b.grapheme.length ≤ e.grapheme.length))
    then some e else best

/-- Modelled from the spec (§4.2): greedy longest-match scanning; on no
match the single codepoint passes through as an `other` token.  Fuel is
the remaining text length (each step consumes at least one codepoint). -/
def tokenizeFuel (table : List Entry) : Nat → List Char → List Token
  | 0, _ => []
  | _, [] => []
  | fuel + 1, c :: rest =>
    match longestEntry table (c :: rest) with
    | some e =>
      ⟨e.cls, e.grapheme, some e.phoneme⟩ ::
        tokenizeFuel table fuel (List.drop e.grapheme.length (c :: rest))
    | none => ⟨.other, [c], none⟩ :: tokenizeFuel table fuel rest

/-- Tokenize a text under a schema table. -/
def tokenize (table : List Entry) (text : List Char) : List Token :=
  tokenizeFuel table text.length text

/-- A hub-stream item: a resolved phoneme (with class and source text) or
passthrough source text (spec §§4.6, 4.7). -/
structure Item where
  ph : Option String
  cls : GClass
  src : List Char
  deriving DecidableEq

/-- Forget token structure into an item. -/
def itemOfToken (t : Token) : Item := ⟨t.phoneme, t.cls, t.text⟩

/-- After a consonant+virama pair, these classes let the virama fuse into
a cluster (the vowel is simply suppressed); before a vowel the virama
remains explicit in the stream. -/
def fuseNext : GClass → Bool
  | .consonant => true
  | .mark => true
  | .other => true
  | _ => false

/-- Modelled from the spec (§4.2): Brahmic inherent-vowel resolution with
one token of lookahead — a bare consonant carries the inherent vowel
`inh` unless followed by a vowel sign (which substitutes its vowel) or a
virama (which suppresses it, fusing a cluster). -/
def resolveIndic (inh : String) : List Token → List Item
  | [] => []
  | [t] =>
    if t.cls = .consonant then [itemOfToken t, ⟨some inh, .vowel, []⟩]
    else [itemOfToken t]
  | t :: t2 :: rest2 =>
    if t.cls = .consonant then
      if t2.cls = .vowelSign then
        itemOfToken t :: ⟨t2.phoneme, .vowel, t2.text⟩ :: resolveIndic inh rest2
      else if t2.cls = .virama then
        match rest2 with
        | [] => [itemOfToken t]
        | t3 :: _ =>
          if fuseNext t3.cls then itemOfToken t :: resolveIndic inh rest2
          else itemOfToken t :: itemOfToken t2 :: resolveIndic inh rest2
      else
        itemOfToken t :: ⟨some inh, .vowel, []⟩ :: resolveIndic inh (t2 :: rest2)
    else itemOfToken t :: resolveIndic inh (t2 :: rest2)

/-- Phoneme resolution per family: Indic schemas apply the inherent-vowel
rule, Roman schemas emit one phoneme per token (spec §4.2). -/
def resolveTokens (fam : Family) (inh : String) (toks : List Token) : List Item :=
  match fam with
  | .indic => resolveIndic inh toks
  | .roman => toks.map itemOfToken

/-- The Roman-hub phoneme catalog (spec §3): one symbolic id per phonemic
unit. -/
def hubIds : List String :=
  ["a", "aa", "i", "ii", "u", "uu", "ru", "ruu", "lu", "luu", "e", "ai",
   "o", "au", "k", "kh", "g", "gh", "ng", "c", "ch", "j", "jh", "ny",
   "tt", "tth", "dd", "ddh", "nn", "t", "th", "d", "dh", "n", "p", "ph",
   "b", "bh", "m", "y", "r", "l", "v", "sh", "ss", "s", "h", "am", "ah",
   "ks", "jn"]

/-- Modelled from the spec (§4.3): the fixed 1:1 correspondence between
the Indic-hub catalog (ids prefixed with `*`) and the Roman-hub catalog.
The Indic-only virama id `*vir` has no Roman counterpart. -/
def bridgeTable : List (String × String) :=
  hubIds.map (fun p => ("*" ++ p, p))

/-- Indic-hub → Roman-hub phoneme translation; ids outside the bridge are
kept unchanged (they will fail target lookup and pass through). -/
def bridgeFwd (p : String) : String :=
  match bridgeTable.find? (fun e => e.1 == p) with
  | some e => e.2
  | none => p

/-- Roman-hub → Indic-hub phoneme translation. -/
def bridgeRev (p : String) : String :=
  match bridgeTable.find? (fun e => e.2 == p) with
  | some e => e.1
  | none => p

/-- The bridge stage for a (source family, target family) pair; the
identity within one family (spec §4.3). -/
def bridgeFor : Family → Family → String → String
  | .indic, .roman => bridgeFwd
  | .roman, .indic => bridgeRev
  | _, _ => id

/-- Apply the bridge to a resolved stream. -/
def applyBridge (f : String → String) (items : List Item) : List Item :=
  items.map (fun it => { it with ph := it.ph.map f })

/-- The bridged copy of one item. -/
def bridgeItem (f : String → String) (it : Item) : Item :=
  ⟨it.ph.map f, it.cls, it.src⟩

/-- The Indic-hub inherent short vowel (spec §4.2). -/
def indicInherent : String := "*a"

/-- First entry carrying a phoneme (any class). -/
def findByPh (table : List Entry) (p : String) : Option Entry :=
  table.find? (fun e => e.phoneme == p)

/-- First entry carrying a phoneme in a given class. -/
def findByPhCls (table : List Entry) (p : String) (cls : GClass) : Option Entry :=
  table.find? (fun e => e.phoneme == p && decide (e.cls = cls))

/-- The target script's virama grapheme (empty if the script has none). -/
def viramaG (table : List Entry) : List Char :=
  match table.find? (fun e => decide (e.cls = GClass.virama)) with
  | some e => e.grapheme
  | none => []

/-- Modelled from the spec (§4.6): render a hub stream into a
Roman-family script — one grapheme per phoneme; unmapped phonemes and
passthrough items emit their source text verbatim. -/
def renderRoman (table : List Entry) : List Item → List Char
  | [] => []
  | it :: rest =>
    (match it.ph with
     | some p =>
       match findByPh table p with
       | some e => e.grapheme
       | none => it.src
     | none => it.src) ++ renderRoman table rest

/-- Modelled from the spec (§§4.2, 4.6): render a hub stream into an
Indic-family script, inverting inherent-vowel resolution — a consonant
followed by the inherent vowel renders bare, by another vowel renders
with that vowel's sign, and otherwise renders with a virama. -/
def renderIndic (table : List Entry) : List Item → List Char
  | [] => []
  | [it] =>
    match it.ph with
    | none => it.src
    | some p =>
      if it.cls = .consonant then
        match findByPhCls table p .consonant with
        | none => it.src
        | some e => e.grapheme ++ viramaG table
      else
        match findByPhCls table p it.cls with
        | some e => e.grapheme
        | none => it.src
  | it :: it2 :: rest2 =>
    match it.ph with
    | none => it.src ++ renderIndic table (it2 :: rest2)
    | some p =>
      if it.cls = .consonant then
        match findByPhCls table p .consonant with
        | none => it.src ++ renderIndic table (it2 :: rest2)
        | some e =>
          if it2.cls = .vowel then
            match it2.ph with
            | some v =>
              if v = indicInherent then e.grapheme ++ renderIndic table rest2
              else
                match findByPhCls table v .vowelSign with
                | some m => e.grapheme ++ m.grapheme ++ renderIndic table rest2
                | none =>
                  e.grapheme ++ viramaG table ++ renderIndic table (it2 :: rest2)
            | none =>
              e.grapheme ++ viramaG table ++ renderIndic table (it2 :: rest2)
          else if it2.cls = .virama then
            e.grapheme ++ viramaG table ++ renderIndic table rest2
          else e.grapheme ++ viramaG table ++ renderIndic table (it2 :: rest2)
      else
        match findByPhCls table p it.cls with
        | some e => e.grapheme ++ renderIndic table (it2 :: rest2)
        | none => it.src ++ renderIndic table (it2 :: rest2)

/-- Render per target family (spec §4.6). -/
def render (fam : Family) (table : List Entry) (items : List Item) : List Char :=
  match fam with
  | .indic => renderIndic table items
  | .roman => renderRoman table items

/-- Shorthand for building an entry from a literal grapheme. -/
def E (g : String) (p : String) (c : GClass) : Entry := ⟨g.toList, p, c⟩

/-- Modelled from the spec (§6 schema format) with the IAST grapheme
inventory used throughout the repository's tests. -/
def iastTable : List Entry :=
  [E "a" "a" .vowel, E "ā" "aa" .vowel, E "i" "i" .vowel, E "ī" "ii" .vowel,
   E "u" "u" .vowel, E "ū" "uu" .vowel, E "ṛ" "ru" .vowel, E "ṝ" "ruu" .vowel,
   E "ḷ" "lu" .vowel, E "ḹ" "luu" .vowel, E "e" "e" .vowel, E "ai" "ai" .vowel,
   E "o" "o" .vowel, E "au" "au" .vowel,
   E "k" "k" .consonant, E "kh" "kh" .consonant, E "g" "g" .consonant,
   E "gh" "gh" .consonant, E "ṅ" "ng" .consonant, E "c" "c" .consonant,
   E "ch" "ch" .consonant, E "j" "j" .consonant, E "jh" "jh" .consonant,
   E "ñ" "ny" .consonant, E "ṭ" "tt" .consonant, E "ṭh" "tth" .consonant,
   E "ḍ" "dd" .consonant, E "ḍh" "ddh" .consonant, E "ṇ" "nn" .consonant,
   E "t" "t" .consonant, E "th" "th" .consonant, E "d" "d" .consonant,
   E "dh" "dh" .consonant, E "n" "n" .consonant, E "p" "p" .consonant,
   E "ph" "ph" .consonant, E "b" "b" .consonant, E "bh" "bh" .consonant,
   E "m" "m" .consonant, E "y" "y" .consonant, E "r" "r" .consonant,
   E "l" "l" .consonant, E "v" "v" .consonant, E "ś" "sh" .consonant,
   E "ṣ" "ss" .consonant, E "s" "s" .consonant, E "h" "h" .consonant,
   E "ṃ" "am" .mark, E "ḥ" "ah" .mark,
   E "kṣ" "ks" .consonant, E "jñ" "jn" .consonant]

/-- Modelled from the spec (§6) with the SLP1 inventory of the tests. -/
def slp1Table : List Entry :=
  [E "a" "a" .vowel, E "A" "aa" .vowel, E "i" "i" .vowel, E "I" "ii" .vowel,
   E "u" "u" .vowel, E "U" "uu" .vowel, E "f" "ru" .vowel, E "F" "ruu" .vowel,
   E "x" "lu" .vowel, E "X" "luu" .vowel, E "e" "e" .vowel, E "E" "ai" .vowel,
   E "o" "o" .vowel, E "O" "au" .vowel,
   E "k" "k" .consonant, E "K" "kh" .consonant, E "g" "g" .consonant,
   E "G" "gh" .consonant, E "N" "ng" .consonant, E "c" "c" .consonant,
   E "C" "ch" .consonant, E "j" "j" .consonant, E "J" "jh" .consonant,
   E "Y" "ny" .consonant, E "w" "tt" .consonant, E "W" "tth" .consonant,
   E "q" "dd" .consonant, E "Q" "ddh" .consonant, E "R" "nn" .consonant,
   E "t" "t" .consonant, E "T" "th" .consonant, E "d" "d" .consonant,
   E "D" "dh" .consonant, E "n" "n" .consonant, E "p" "p" .consonant,
   E "P" "ph" .consonant, E "b" "b" .consonant, E "B" "bh" .consonant,
   E "m" "m" .consonant, E "y" "y" .consonant, E "r" "r" .consonant,
   E "l" "l" .consonant, E "v" "v" .consonant, E "S" "sh" .consonant,
   E "z" "ss" .consonant, E "s" "s" .consonant, E "h" "h" .consonant,
   E "M" "am" .mark, E "H" "ah" .mark,
   E "kz" "ks" .consonant, E "jY" "jn" .consonant]

/-- Modelled from the spec (§6) with the standard Devanagari inventory
(independent vowels, dependent vowel signs, virama, nasal marks,
consonants and the two conjunct consonants of the tests). -/
def devanagariTable : List Entry :=
  [E "अ" "*a" .vowel, E "आ" "*aa" .vowel, E "इ" "*i" .vowel,
   E "ई" "*ii" .vowel, E "उ" "*u" .vowel, E "ऊ" "*uu" .vowel,
   E "ऋ" "*ru" .vowel, E "ॠ" "*ruu" .vowel, E "ऌ" "*lu" .vowel,
   E "ॡ" "*luu" .vowel, E "ए" "*e" .vowel, E "ऐ" "*ai" .vowel,
   E "ओ" "*o" .vowel, E "औ" "*au" .vowel,
   E "ा" "*aa" .vowelSign, E "ि" "*i" .vowelSign, E "ी" "*ii" .vowelSign,
   E "ु" "*u" .vowelSign, E "ू" "*uu" .vowelSign, E "ृ" "*ru" .vowelSign,
   E "ॄ" "*ruu" .vowelSign, E "ॢ" "*lu" .vowelSign, E "ॣ" "*luu" .vowelSign,
   E "े" "*e" .vowelSign, E "ै" "*ai" .vowelSign, E "ो" "*o" .vowelSign,
   E "ौ" "*au" .vowelSign,
   E "्" "*vir" .virama,
   E "ं" "*am" .mark, E "ः" "*ah" .mark,
   E "क" "*k" .consonant, E "ख" "*kh" .consonant, E "ग" "*g" .consonant,
   E "घ" "*gh" .consonant, E "ङ" "*ng" .consonant, E "च" "*c" .consonant,
   E "छ" "*ch" .consonant, E "ज" "*j" .consonant, E "झ" "*jh" .consonant,
   E "ञ" "*ny" .consonant, E "ट" "*tt" .consonant, E "ठ" "*tth" .consonant,
   E "ड" "*dd" .consonant, E "ढ" "*ddh" .consonant, E "ण" "*nn" .consonant,
   E "त" "*t" .consonant, E "थ" "*th" .consonant, E "द" "*d" .consonant,
   E "ध" "*dh" .consonant, E "न" "*n" .consonant, E "प" "*p" .consonant,
   E "फ" "*ph" .consonant, E "ब" "*b" .consonant, E "भ" "*bh" .consonant,
   E "म" "*m" .consonant, E "य" "*y" .consonant, E "र" "*r" .consonant,
   E "ल" "*l" .consonant, E "व" "*v" .consonant, E "श" "*sh" .consonant,
   E "ष" "*ss" .consonant, E "स" "*s" .consonant, E "ह" "*h" .consonant,
   E "क्ष" "*ks" .consonant, E "ज्ञ" "*jn" .consonant]

/-- The IAST schema. -/
def iast : ScriptSchema := ⟨"iast", .roman, [], iastTable⟩

/-- The SLP1 schema. -/
def slp1 : ScriptSchema := ⟨"slp1", .roman, [], slp1Table⟩

/-- The Devanagari schema (Indic family, alias `deva`). -/
def devanagari : ScriptSchema := ⟨"devanagari", .indic, ["deva"], devanagariTable⟩

/-- The schema repository (spec §4.1): the registered scripts. -/
def registry : List ScriptSchema := [devanagari, iast, slp1]

/-- Alias-resolving schema lookup (spec §4.1 `load`). -/
def resolveScript (name : String) : Option ScriptSchema :=
  registry.find? (fun s => s.id == name || s.aliases.contains name)

/-- The error taxonomy surfaced by `convert` (spec §7). -/
inductive ConvError where
  | schemaNotFound : String → ConvError
  deriving DecidableEq

deriving instance DecidableEq for Except

/-- Modelled from the spec (§4.6): the full hub chain — tokenizer →
resolution → hub bridge → renderer, reassembling output in token
order. -/
def convertCore (src tgt : ScriptSchema) (text : List Char) : List Char :=
  render tgt.family tgt.table
    (applyBridge (bridgeFor src.family tgt.family)
      (resolveTokens src.family indicInherent (tokenize src.table text)))

/-- Modelled from the spec (§§4.6, 6, 7): the `convert` entry point —
alias resolution can fail with `SchemaNotFound` before any text is
processed; afterwards conversion is total. -/
def convertE (text : List Char) (fromName toName : String) :
    Except ConvError (List Char) :=
  match resolveScript fromName with
  | none => .error (.schemaNotFound fromName)
  | some src =>
    match resolveScript toName with
    | none => .error (.schemaNotFound toName)
    | some tgt => .ok (convertCore src tgt text)

/-- Modelled from the spec (§4.5): one row of a flattened direct table.
The source grapheme on the left is the scan key; everything on the right
is precomputed by composing source→hub, the family bridge and hub→target
at build time — the composed main output (`none` when the chain would
pass the token's own text through), the composed independent-vowel and
dependent vowel-sign outputs for an Indic target, and whether the row
carries the target-side inherent vowel.  At run time the direct path
consults no schema table. -/
structure DEntry where
  grapheme : List Char
  cls : GClass
  out : Option (List Char)
  outVow : Option (List Char)
  sign : Option (List Char)
  inh : Bool
  deriving DecidableEq

/-- A token of the direct path: the matched row's precomputed data, or a
passthrough codepoint; the source text is kept for verbatim copying. -/
structure DItem where
  cls : GClass
  src : List Char
  out : Option (List Char)
  outVow : Option (List Char)
  sign : Option (List Char)
  inh : Bool
  deriving DecidableEq

/-- Modelled from the spec (§4.5): compose the whole chain for one source
row into a direct row — source grapheme straight to target grapheme. -/
def composeEntry (br : String → String) (tgtFam : Family) (tgt : List Entry)
    (e : Entry) : DEntry :=
  { grapheme := e.grapheme
    cls := e.cls
    out := match tgtFam with
      | .roman => (findByPh tgt (br e.phoneme)).map Entry.grapheme
      | .indic => (findByPhCls tgt (br e.phoneme) e.cls).map Entry.grapheme
    outVow := match tgtFam with
      | .roman => (findByPh tgt (br e.phoneme)).map Entry.grapheme
      | .indic => (findByPhCls tgt (br e.phoneme) .vowel).map Entry.grapheme
    sign := (findByPhCls tgt (br e.phoneme) .vowelSign).map Entry.grapheme
    inh := decide (br e.phoneme = indicInherent) }

/-- The flattened grapheme→grapheme table of a pair (spec §4.5). -/
def directTable (src tgt : ScriptSchema) : List DEntry :=
  src.table.map
    (composeEntry (bridgeFor src.family tgt.family) tgt.family tgt.table)

/-- The composed row synthesized for the source-side inherent vowel,
also precomputed at build time. -/
def inhDItem (br : String → String) (tgtFam : Family) (tgt : List Entry) :
    DItem :=
  { cls := .vowel
    src := []
    out := match tgtFam with
      | .roman => (findByPh tgt (br indicInherent)).map Entry.grapheme
      | .indic => (findByPhCls tgt (br indicInherent) .vowel).map Entry.grapheme
    outVow := match tgtFam with
      | .roman => (findByPh tgt (br indicInherent)).map Entry.grapheme
      | .indic => (findByPhCls tgt (br indicInherent) .vowel).map Entry.grapheme
    sign := (findByPhCls tgt (br indicInherent) .vowelSign).map Entry.grapheme
    inh := decide (br indicInherent = indicInherent) }

/-- Greedy longest candidate over a flattened table (the first row wins
ties), mirroring the schema scan. -/
def longestD : List DEntry → List Char → Option DEntry
  | [], _ => none
  | d :: rest, text =>
    let best := longestD rest text
    if isPfx d.grapheme text && decide (0 < d.grapheme.length) &&
        (match best with
         | none => true
         | some b => decide (b.grapheme.length ≤ d.grapheme.length))
    then some d else best

/-- The direct-stream token of a matched row. -/
def dItemOfEntry (d : DEntry) : DItem :=
  ⟨d.cls, d.grapheme, d.out, d.outVow, d.sign, d.inh⟩

/-- Greedy scan with the flattened table; unmatched codepoints pass
through. -/
def tokenizeDFuel (tab : List DEntry) : Nat → List Char → List DItem
  | 0, _ => []
  | _, [] => []
  | fuel + 1, c :: rest =>
    match longestD tab (c :: rest) with
    | some d =>
      dItemOfEntry d ::
        tokenizeDFuel tab fuel (List.drop d.grapheme.length (c :: rest))
    | none => ⟨.other, [c], none, none, none, false⟩ :: tokenizeDFuel tab fuel rest

def tokenizeD (tab : List DEntry) (text : List Char) : List DItem :=
  tokenizeDFuel tab text.length text

/-- Inherent-vowel resolution on the direct stream (the same
source-class-driven rule as the chain's; a dependent vowel sign flips to
its composed independent-vowel output). -/
def resolveD (inhIt : DItem) : List DItem → List DItem
  | [] => []
  | [t] => if t.cls = .consonant then [t, inhIt] else [t]
  | t :: t2 :: rest2 =>
    if t.cls = .consonant then
      if t2.cls = .vowelSign then
        t :: { t2 with cls := .vowel, out := t2.outVow } :: resolveD inhIt rest2
      else if t2.cls = .virama then
        match rest2 with
        | [] => [t]
        | t3 :: _ =>
          if fuseNext t3.cls then t :: resolveD inhIt rest2
          else t :: t2 :: resolveD inhIt rest2
      else t :: inhIt :: resolveD inhIt (t2 :: rest2)
    else t :: resolveD inhIt (t2 :: rest2)

def resolveDTokens (fam : Family) (inhIt : DItem) (items : List DItem) :
    List DItem :=
  match fam with
  | .indic => resolveD inhIt items
  | .roman => items

/-- Emit a Roman-target direct stream: each item's composed output, or
its source text verbatim. -/
def emitRoman : List DItem → List Char
  | [] => []
  | it :: rest =>
    (match it.out with
     | some g => g
     | none => it.src) ++ emitRoman rest

/-- Emit an Indic-target direct stream (the chain's Indic assembly with
every grapheme decision precomputed in the row data). -/
def emitIndic (vir : List Char) : List DItem → List Char
  | [] => []
  | [it] =>
    match it.out with
    | none => it.src
    | some g => if it.cls = .consonant then g ++ vir else g
  | it :: it2 :: rest2 =>
    match it.out with
    | none => it.src ++ emitIndic vir (it2 :: rest2)
    | some g =>
      if it.cls = .consonant then
        if it2.cls = .vowel then
          if it2.inh then g ++ emitIndic vir rest2
          else
            match it2.sign with
            | some m => g ++ m ++ emitIndic vir rest2
            | none => g ++ vir ++ emitIndic vir (it2 :: rest2)
        else if it2.cls = .virama then g ++ vir ++ emitIndic vir rest2
        else g ++ vir ++ emitIndic vir (it2 :: rest2)
      else g ++ emitIndic vir (it2 :: rest2)

/-- Modelled from the spec (§4.5): conversion over a registered direct
path — scan with the single flattened grapheme→grapheme table, then the
family assembly over precomputed row data; no schema table is consulted
at run time. -/
def convertDirect (src tgt : ScriptSchema) (text : List Char) : List Char :=
  match tgt.family with
  | .roman =>
    emitRoman (resolveDTokens src.family
      (inhDItem (bridgeFor src.family tgt.family) tgt.family tgt.table)
      (tokenizeD (directTable src tgt) text))
  | .indic =>
    emitIndic (viramaG tgt.table)
      (resolveDTokens src.family
        (inhDItem (bridgeFor src.family tgt.family) tgt.family tgt.table)
        (tokenizeD (directTable src tgt) text))

/-- The direct-path image of a chain token: what the composed table
precomputes for each matched token (used to state the simulation). -/
def dOfToken (br : String → String) (tgtFam : Family) (tgt : List Entry)
    (t : Token) : DItem :=
  match t.phoneme with
  | none => ⟨t.cls, t.text, none, none, none, false⟩
  | some p =>
    { cls := t.cls
      src := t.text
      out := match tgtFam with
        | .roman => (findByPh tgt (br p)).map Entry.grapheme
        | .indic => (findByPhCls tgt (br p) t.cls).map Entry.grapheme
      outVow := match tgtFam with
        | .roman => (findByPh tgt (br p)).map Entry.grapheme
        | .indic => (findByPhCls tgt (br p) .vowel).map Entry.grapheme
      sign := (findByPhCls tgt (br p) .vowelSign).map Entry.grapheme
      inh := decide (br p = indicInherent) }

/-- The direct-path image of a resolved chain item. -/
def dOfItem (br : String → String) (tgtFam : Family) (tgt : List Entry)
    (it : Item) : DItem :=
  match it.ph with
  | none => ⟨it.cls, it.src, none, none, none, false⟩
  | some p =>
    { cls := it.cls
      src := it.src
      out := match tgtFam with
        | .roman => (findByPh tgt (br p)).map Entry.grapheme
        | .indic => (findByPhCls tgt (br p) it.cls).map Entry.grapheme
      outVow := match tgtFam with
        | .roman => (findByPh tgt (br p)).map Entry.grapheme
        | .indic => (findByPhCls tgt (br p) .vowel).map Entry.grapheme
      sign := (findByPhCls tgt (br p) .vowelSign).map Entry.grapheme
      inh := decide (br p = indicInherent) }

/-- Modelled from the spec (§4.5): composition must introduce no
ambiguity — distinct, nonempty scan keys. -/
def flattenUnambiguous (src : ScriptSchema) : Bool :=
  src.table.all (fun e => decide (0 < e.grapheme.length)) &&
  src.table.all (fun e1 => src.table.all (fun e2 =>
    !decide (e1.grapheme = e2.grapheme) || decide (e1 = e2)))

/-- Modelled from the spec (§4.5): composition must lose no precision —
rows of one class carrying distinct hub phonemes keep distinct composed
outputs (rows the chain passes through keep their distinct source text
verbatim). -/
def flattenLossless (src tgt : ScriptSchema) : Bool :=
  src.table.all (fun e1 => src.table.all (fun e2 =>
    !(decide (e1.cls = e2.cls) &&
        !decide (bridgeFor src.family tgt.family e1.phoneme =
          bridgeFor src.family tgt.family e2.phoneme) &&
        (composeEntry (bridgeFor src.family tgt.family) tgt.family tgt.table
          e1).out.isSome &&
        (composeEntry (bridgeFor src.family tgt.family) tgt.family tgt.table
          e2).out.isSome) ||
      !decide ((composeEntry (bridgeFor src.family tgt.family) tgt.family
          tgt.table e1).out =
        (composeEntry (bridgeFor src.family tgt.family) tgt.family tgt.table
          e2).out)))

/-- The Path Optimizer's per-pair validation (spec §§4.5, 9): a lossy or
ambiguous pair is left un-flattened. -/
def flattenOk (src tgt : ScriptSchema) : Bool :=
  flattenUnambiguous src && flattenLossless src tgt

/-- The optimization profiles of the build surface (spec §6). -/
inductive Profile where
  | noPre : Profile
  | commonPairs : Profile
  | allRomanToIndic : Profile
  | allIndicToRoman : Profile
  deriving DecidableEq

/-- The (source, target) pairs selected for a precomputed direct path
under each profile (spec §§4.5, 6). -/
def profilePairs : Profile → List (String × String)
  | .noPre => []
  | .commonPairs =>
    [("devanagari", "iast"), ("iast", "devanagari"), ("iast", "slp1"),
     ("slp1", "iast")]
  | .allRomanToIndic => [("iast", "devanagari"), ("slp1", "devanagari")]
  | .allIndicToRoman => [("devanagari", "iast"), ("devanagari", "slp1")]

/-- A pair has a registered direct path when the profile selects it and
the Path Optimizer's validation accepts the composition (spec §4.5). -/
def registeredDirect (pr : Profile) (src tgt : ScriptSchema) : Bool :=
  (profilePairs pr).contains (src.id, tgt.id) && flattenOk src tgt

/-- `convert` under an optimization profile: the registered direct path
is preferred when present, the hub chain is used otherwise (spec §4.5). -/
def convertWithProfile (pr : Profile) (text : List Char)
    (fromName toName : String) : Except ConvError (List Char) :=
  match resolveScript fromName with
  | none => .error (.schemaNotFound fromName)
  | some src =>
    match resolveScript toName with
    | none => .error (.schemaNotFound toName)
    | some tgt =>
      if registeredDirect pr src tgt then
        .ok (convertDirect src tgt text)
      else
        .ok (convertCore src tgt text)


/-- Concatenation of token source texts. -/
def concatToks : List Token → List Char
  | [] => []
  | t :: ts => t.text ++ concatToks ts

/-- The token reading of a table entry. -/
def tokenOf (e : Entry) : Token := ⟨e.cls, e.grapheme, some e.phoneme⟩

/-- A text is tokenizable under a schema when greedy scanning resolves
every token (spec §8 Identity / §4.2). -/
def Tokenizable (S : ScriptSchema) (text : List Char) : Prop :=
  ∀ t ∈ tokenize S.table text, t.phoneme.isSome = true

instance (S : ScriptSchema) (text : List Char) : Decidable (Tokenizable S text) :=
  inferInstanceAs (Decidable (∀ t ∈ tokenize S.table text, t.phoneme.isSome = true))


/-- A token is well formed for a table: passthrough, or the reading of a
table entry. -/
def TokWF (table : List Entry) (t : Token) : Prop :=
  (t.cls = .other ∧ t.phoneme = none) ∨ ∃ e ∈ table, t = tokenOf e

/-- Roman identity well-formedness (spec §4.1 validation): each entry is
the first carrying its phoneme. -/
def romanIdOk (table : List Entry) : Bool :=
  table.all (fun e => findByPh table e.phoneme == some e)

/-- Indic identity well-formedness (spec §4.1 validation): per-class
phoneme injectivity, no vowel sign carrying the inherent vowel, and a
unique virama grapheme. -/
def indicIdOk (table : List Entry) : Bool :=
  table.all (fun e => findByPhCls table e.phoneme e.cls == some e) &&
  table.all (fun e =>
    !(decide (e.cls = GClass.vowelSign) && decide (e.phoneme = indicInherent))) &&
  table.all (fun e =>
    !decide (e.cls = GClass.virama) || e.grapheme == viramaG table)


/-- ASCII punctuation, digits and whitespace used by the passthrough
property (spec §8); none of these occur in any registered grapheme. -/
def junkChars : List Char :=
  ['0', '1', '2', '3', '4', '5', '6', '7', '8', '9', '.', ',', ';', ':',
   '!', '?', '-', '(', ')', '[', ']', '\x7b', '\x7d', '\x27', '"', ' ',
   '\t', '\n']


/-- Does the token list end in a bare consonant (whose resolution needs
one token of lookahead)? -/
def consTail (ts : List Token) : Bool :=
  match ts.getLast? with
  | some t => t.cls == .consonant
  | none => false

/-- Does the token list end in a consonant+virama pair (a dangling
cluster)? -/
def consVirTail (ts : List Token) : Bool :=
  match ts.reverse with
  | t2 :: t :: _ => t.cls == .consonant && t2.cls == .virama
  | _ => false

/-- Does the token list begin with a vowel sign or virama (which would
attach to a preceding consonant)? -/
def signVirHead (us : List Token) : Bool :=
  match us.head? with
  | some u => u.cls == .vowelSign || u.cls == .virama
  | none => false

/-- Does the token list begin with a token that keeps a preceding
dangling virama explicit rather than fused? -/
def nonFuseHead (us : List Token) : Bool :=
  match us.head? with
  | some u => !fuseNext u.cls
  | none => false

/-- Does the item stream end in a consonant item (whose rendering on an
Indic target needs one item of lookahead)? -/
def consItemTail (xs : List Item) : Bool :=
  match xs.getLast? with
  | some x => x.cls == .consonant
  | none => false

/-- Does the item stream begin with a vowel or virama item (which would
attach to a preceding consonant on an Indic target)? -/
def vowVirHead (ys : List Item) : Bool :=
  match ys.head? with
  | some y => y.cls == .vowel || y.cls == .virama
  | none => false

/-- Modelled from the spec (§8 concatenation locality): the split point
falls on a grapheme boundary (tokenization splits), does not interrupt an
inherent-vowel/virama sequence on the source side, and — for an Indic
target — does not leave the left half's trailing consonant item met by an
attaching vowel or virama item heading the right half. -/
def SafeSplit (src tgt : ScriptSchema) (T1 T2 : List Char) : Prop :=
  tokenize src.table (T1 ++ T2) =
    tokenize src.table T1 ++ tokenize src.table T2 ∧
  (src.family = .indic →
    ¬(consTail (tokenize src.table T1) = true ∧
        signVirHead (tokenize src.table T2) = true) ∧
    ¬(consVirTail (tokenize src.table T1) = true ∧
        nonFuseHead (tokenize src.table T2) = true)) ∧
  (tgt.family = .indic →
    ¬(consItemTail (applyBridge (bridgeFor src.family tgt.family)
        (resolveTokens src.family indicInherent
          (tokenize src.table T1))) = true ∧
      vowVirHead (applyBridge (bridgeFor src.family tgt.family)
        (resolveTokens src.family indicInherent
          (tokenize src.table T2))) = true))


/-- The target-table grapheme image of a phoneme (empty when the phoneme
has no target entry). -/
def imageG (tab : List Entry) (p : String) : List Char :=
  match findByPh tab p with
  | some f => f.grapheme
  | none => []

/-- Roman→Roman conversion core: tokenize under the source table and
render each phoneme with the target table (the hub bridge is the identity
within the Roman family, spec §4.3). -/
def romanConv (src tgt : List Entry) (text : List Char) : List Char :=
  renderRoman tgt (List.map itemOfToken (tokenize src text))

/-- Closed-pair coverage (spec §8 round-trip proviso): every source
phoneme has a target entry. -/
def coveredBy (a b : List Entry) : Bool :=
  a.all (fun e => (findByPh b e.phoneme).isSome)

/-- Every target image of a source phoneme is a nonempty grapheme. -/
def imagesNonempty (a b : List Entry) : Bool :=
  a.all (fun e => decide (0 < (imageG b e.phoneme).length))

/-- All graphemes of a table have length at most two. -/
def maxPat2 (b : List Entry) : Bool :=
  b.all (fun f => decide (f.grapheme.length ≤ 2))

/-- Graphemes identify entries of a table. -/
def graphemeInj (b : List Entry) : Bool :=
  b.all (fun f => b.all (fun f2 =>
    !decide (f.grapheme = f2.grapheme) || decide (f = f2)))

/-- Greedy-adjacency soundness for retokenization: whenever a target
grapheme overruns the image of one source grapheme into the image of the
next, a longer source grapheme matches at the same position, so greedy
source tokenization never emits that adjacent token pair. -/
def noOverrun (a b : List Entry) : Bool :=
  b.all (fun w =>
    decide (w.grapheme.length ≤ 1) ||
    a.all (fun e => a.all (fun e1 =>
      !(isPfx w.grapheme (imageG b e.phoneme ++ imageG b e1.phoneme) &&
          decide ((imageG b e.phoneme).length < w.grapheme.length)) ||
        a.any (fun v => isPfx v.grapheme (e.grapheme ++ e1.grapheme) &&
          decide (e.grapheme.length < v.grapheme.length)))))

/-! ### Lemmas: the lookup primitives -/

theorem isPfx_iff {p w : List Char} :
    isPfx p w = true ↔ p.length ≤ w.length ∧ w.take p.length = p := by
  induction p generalizing w with
  | nil => simp [isPfx]
  | cons a p ih =>
    cases w with
    | nil => simp [isPfx]
    | cons b w =>
      simp only [isPfx, Bool.and_eq_true, beq_iff_eq, List.length_cons,
        List.take_succ_cons, List.cons.injEq, ih]
      constructor
      · rintro ⟨hab, hle, htake⟩
        exact ⟨by omega, hab.symm, htake⟩
      · rintro ⟨hle, hab, htake⟩
        exact ⟨hab.symm, by omega, htake⟩

theorem isPfx_take {w : List Char} {n : Nat} (h : n ≤ w.length) :
    isPfx (w.take n) w = true := by
  rw [isPfx_iff]
  constructor
  · simp [List.length_take]
  · rw [List.length_take, Nat.min_eq_left h]

theorem lookupKey_mem {table : MapTable} {k : Pattern} {v : String}
    (h : lookupKey table k = some v) : (k, v) ∈ table := by
  unfold lookupKey at h
  cases hf : table.find? (fun e => e.1 == k) with
  | none => simp [hf] at h
  | some e =>
    simp only [hf, Option.map_some] at h
    have he := List.find?_some hf
    have hmem := List.mem_of_find?_eq_some hf
    simp only [beq_iff_eq] at he
    cases h
    rw [← he]
    exact hmem

theorem lookupKey_eq_none_iff {table : MapTable} {k : Pattern} :
    lookupKey table k = none ↔ ∀ v, (k, v) ∉ table := by
  induction table with
  | nil => simp [lookupKey]
  | cons e rest ih =>
    by_cases hek : e.1 = k
    · rw [lookupKey, List.find?_cons_of_pos _ (by simpa using hek)]
      constructor
      · intro h; simp at h
      · intro h
        exact absurd (show (k, e.2) ∈ e :: rest by
          rw [← hek]; exact List.mem_cons_self _ _) (h e.2)
    · rw [lookupKey, List.find?_cons_of_neg _ (by simpa using hek)]
      rw [show Option.map (fun x => x.2) (rest.find? (fun e => e.1 == k))
        = lookupKey rest k from rfl, ih]
      constructor
      · intro h v hv
        rcases List.mem_cons.mp hv with he | hr
        · exact absurd (congrArg Prod.fst he.symm) hek
        · exact h v hr
      · intro h v hv
        exact h v (List.mem_cons_of_mem _ hv)

theorem lookupKey_of_mem {table : MapTable} {k : Pattern} {v : String}
    (hnd : (table.map Prod.fst).Nodup) (h : (k, v) ∈ table) :
    lookupKey table k = some v := by
  induction table with
  | nil => simp at h
  | cons e rest ih =>
    simp only [List.map_cons, List.nodup_cons] at hnd
    rcases List.mem_cons.mp h with he | hr
    · subst he
      simp [lookupKey, List.find?]
    · have hne : e.1 ≠ k := by
        intro hk
        exact hnd.1 (by rw [hk]; exact List.mem_map.mpr ⟨(k, v), hr, rfl⟩)
      have := ih hnd.2 hr
      unfold lookupKey at this ⊢
      rw [List.find?_cons_of_neg _ (by simpa using hne)]
      exact this

theorem length_le_maxPatLen {table : MapTable} {e : Pattern × String}
    (h : e ∈ table) : e.1.length ≤ maxPatLen table := by
  have hinit : ∀ (l : MapTable) (acc : Nat),
      acc ≤ l.foldl (fun m e => max m e.1.length) acc := by
    intro l
    induction l with
    | nil => simp
    | cons f rest ih =>
      intro acc
      calc acc ≤ max acc f.1.length := Nat.le_max_left _ _
        _ ≤ _ := ih _
  have main : ∀ (l : MapTable) (acc : Nat), e ∈ l →
      e.1.length ≤ l.foldl (fun m e => max m e.1.length) acc := by
    intro l
    induction l with
    | nil => intro acc h; simp at h
    | cons f rest ih =>
      intro acc hmem
      rcases List.mem_cons.mp hmem with hef | her
      · subst hef
        calc e.1.length ≤ max acc e.1.length := Nat.le_max_right _ _
          _ ≤ _ := hinit rest _
      · exact ih _ her
  exact main table 0 h

theorem lookupKey_take_eq_none_of_gt {table : MapTable} {window : List Char}
    {j : Nat} (hj : j ≤ window.length) (hgt : maxPatLen table < j) :
    lookupKey table (window.take j) = none := by
  rw [lookupKey_eq_none_iff]
  intro v hv
  have := length_le_maxPatLen hv
  simp only [List.length_take] at this
  omega

/-! ### Lemmas: characterizing the hash-table strategy -/

theorem fxGo_eq_none_iff {table : MapTable} {window : List Char} {n : Nat} :
    fxGo table window n = none ↔
      ∀ m, 1 ≤ m → m ≤ n → lookupKey table (window.take m) = none := by
  induction n with
  | zero => simp [fxGo]; omega
  | succ n ih =>
    cases h : lookupKey table (window.take (n + 1)) with
    | some v =>
      simp only [fxGo, h]
      constructor
      · intro hc; exact absurd hc (by simp)
      · intro hall
        have := hall (n + 1) (by omega) (by omega)
        rw [this] at h
        exact absurd h (by simp)
    | none =>
      simp only [fxGo, h, ih]
      constructor
      · intro hall m h1 hm
        rcases Nat.lt_or_ge m (n + 1) with hlt | hge
        · exact hall m h1 (by omega)
        · have : m = n + 1 := by omega
          subst this; exact h
      · intro hall m h1 hm
        exact hall m h1 (by omega)

theorem fxGo_eq_some_iff {table : MapTable} {window : List Char} {n : Nat}
    {v : String} {m : Nat} :
    fxGo table window n = some (v, m) ↔
      1 ≤ m ∧ m ≤ n ∧ lookupKey table (window.take m) = some v ∧
        ∀ j, m < j → j ≤ n → lookupKey table (window.take j) = none := by
  induction n with
  | zero =>
    simp only [fxGo]
    constructor
    · intro hc; exact absurd hc (by simp)
    · intro ⟨h1, h2, _⟩; omega
  | succ n ih =>
    cases h : lookupKey table (window.take (n + 1)) with
    | some u =>
      simp only [fxGo, h, Option.some.injEq, Prod.mk.injEq]
      constructor
      · rintro ⟨hu, hm⟩
        subst hm
        refine ⟨by omega, le_refl _, by rw [h, hu], ?_⟩
        intro j hj hj'
        omega
      · rintro ⟨h1, h2, hlk, hall⟩
        rcases Nat.lt_or_ge m (n + 1) with hlt | hge
        · have := hall (n + 1) (by omega) (by omega)
          rw [this] at h
          exact absurd h (by simp)
        · have hm : m = n + 1 := by omega
          subst hm
          rw [h] at hlk
          exact ⟨Option.some.inj hlk, rfl⟩
    | none =>
      simp only [fxGo, h, ih]
      constructor
      · rintro ⟨h1, h2, hlk, hall⟩
        refine ⟨h1, by omega, hlk, ?_⟩
        intro j hj hj'
        rcases Nat.lt_or_ge j (n + 1) with hlt | hge
        · exact hall j hj (by omega)
        · have : j = n + 1 := by omega
          subst this; exact h
      · rintro ⟨h1, h2, hlk, hall⟩
        have hm : m ≤ n := by
          rcases Nat.lt_or_ge m (n + 1) with hlt | hge
          · omega
          · have : m = n + 1 := by omega
            subst this
            rw [h] at hlk
            exact absurd hlk (by simp)
        exact ⟨h1, hm, hlk, fun j hj hj' => hall j hj (by omega)⟩

/-! ### Lemmas: characterizing the automaton strategy -/

theorem childGet_childSet_self (ch : List (Char × Trie)) (c : Char) (t : Trie) :
    childGet (childSet ch c t) c = some t := by
  induction ch with
  | nil => simp [childSet, childGet, List.find?]
  | cons e tail ih =>
    by_cases hdc : e.1 = c
    · simp [childSet, hdc, childGet, List.find?]
    · obtain ⟨d, u⟩ := e
      simp only at hdc
      rw [childSet, if_neg (by simpa using hdc)]
      rw [childGet, List.find?_cons_of_neg _ (by simpa using hdc)]
      exact ih

theorem childGet_childSet_ne (ch : List (Char × Trie)) {c d : Char} (t : Trie)
    (h : d ≠ c) : childGet (childSet ch c t) d = childGet ch d := by
  induction ch with
  | nil =>
    simp only [childSet, childGet]
    rw [List.find?_cons_of_neg _ (by simpa using Ne.symm h)]
  | cons e tail ih =>
    obtain ⟨d', u⟩ := e
    by_cases hdc : d' = c
    · subst hdc
      rw [childSet, if_pos (by simp)]
      rw [childGet, List.find?_cons_of_neg _ (by simpa using Ne.symm h)]
      rw [childGet, List.find?_cons_of_neg _ (by simpa using Ne.symm h)]
    · rw [childSet, if_neg (by simpa using hdc)]
      by_cases hdd : d' = d
      · subst hdd
        rw [childGet, List.find?_cons_of_pos _ (by simp)]
        rw [childGet, List.find?_cons_of_pos _ (by simp)]
      · rw [childGet, List.find?_cons_of_neg _ (by simpa using hdd)]
        rw [childGet, List.find?_cons_of_neg _ (by simpa using hdd)]
        exact ih

theorem Trie.find_empty (p : Pattern) : Trie.empty.find p = none := by
  cases p with
  | nil => rfl
  | cons c rest => simp [Trie.empty, Trie.find, childGet, List.find?]

theorem Trie.find_insert (k : Pattern) :
    ∀ (t : Trie) (p : Pattern) (v : String),
      (t.insert k v).find p =
        if p = k then ((t.find k).orElse fun _ => some v) else t.find p := by
  induction k with
  | nil =>
    intro t p v
    obtain ⟨out, ch⟩ := t
    cases p with
    | nil => simp [Trie.insert, Trie.find]
    | cons c rest => simp [Trie.insert, Trie.find]
  | cons a k ih =>
    intro t p v
    obtain ⟨out, ch⟩ := t
    cases p with
    | nil => simp [Trie.insert, Trie.find]
    | cons c rest =>
      by_cases hca : c = a
      · subst hca
        simp only [Trie.insert, Trie.find, childGet_childSet_self]
        rw [ih]
        by_cases hrk : rest = k
        · subst hrk
          simp only [if_pos rfl, List.cons.injEq, true_and]
          cases hcg : childGet ch c with
          | none => simp [Trie.find_empty]
          | some sub => simp
        · rw [if_neg hrk, if_neg (by simp [hrk])]
          cases hcg : childGet ch c with
          | none => simp [Trie.find_empty]
          | some sub => simp
      · simp only [Trie.insert, Trie.find,
          childGet_childSet_ne _ _ (show c ≠ a from hca)]
        rw [if_neg (by simp [hca])]

theorem Trie.find_build (table : MapTable) (p : Pattern) (hp : p ≠ []) :
    (Trie.build table).find p = lookupKey table p := by
  have key : ∀ (es : MapTable) (t0 : Trie),
      (es.foldl (fun t e => if e.1.isEmpty then t else t.insert e.1 e.2) t0).find p
        = ((t0.find p).orElse fun _ => lookupKey es p) := by
    intro es
    induction es with
    | nil =>
      intro t0
      cases h : t0.find p <;> simp [lookupKey, Option.orElse, h]
    | cons e rest ih =>
      intro t0
      rw [List.foldl_cons, ih]
      by_cases he : e.1.isEmpty
      · have hep : e.1 ≠ p := by
          intro hc; rw [hc] at he; exact hp (List.isEmpty_iff.mp he)
        rw [if_pos he]
        rw [show lookupKey (e :: rest) p
          = lookupKey rest p from by
            unfold lookupKey
            rw [List.find?_cons_of_neg _ (by simpa using hep)]]
      · rw [if_neg he, Trie.find_insert]
        by_cases hpe : p = e.1
        · rw [if_pos hpe]
          rw [show lookupKey (e :: rest) p = some e.2 from by
            unfold lookupKey
            rw [List.find?_cons_of_pos _ (by simpa using hpe.symm)]
            rfl]
          cases h : t0.find e.1 <;> simp [Option.orElse, hpe, h]
        · rw [if_neg hpe]
          rw [show lookupKey (e :: rest) p = lookupKey rest p from by
            unfold lookupKey
            rw [List.find?_cons_of_neg _ (by simpa using fun h => hpe h.symm)]]
  rw [Trie.build, key table Trie.empty, Trie.find_empty]
  rfl

theorem Trie.walk_spec (text : List Char) :
    ∀ (t : Trie) (depth : Nat) (best : Option (String × Nat)),
      t.walk text depth best =
        match t.bestFind text with
        | some r => some (r.1, depth + r.2)
        | none => best := by
  induction text with
  | nil =>
    intro t depth best
    obtain ⟨out, ch⟩ := t
    cases out <;> simp [Trie.walk, Trie.bestFind]
  | cons c rest ih =>
    intro t depth best
    obtain ⟨out, ch⟩ := t
    cases hcg : childGet ch c with
    | none =>
      cases out <;> simp [Trie.walk, Trie.bestFind, hcg]
    | some t' =>
      rw [show Trie.walk (.node out ch) (c :: rest) depth best
        = t'.walk rest (depth + 1)
            (match out with | some v => some (v, depth) | none => best) from by
          simp [Trie.walk, hcg]]
      rw [ih]
      cases hbf : t'.bestFind rest with
      | some r =>
        rw [show Trie.bestFind (.node out ch) (c :: rest)
          = some (r.1, r.2 + 1) from by
            simp [Trie.bestFind, hcg, hbf]]
        simp only
        congr 1
        rw [Prod.mk.injEq]
        exact ⟨rfl, by omega⟩
      | none =>
        rw [show Trie.bestFind (.node out ch) (c :: rest)
          = out.map (fun v => (v, 0)) from by
            simp [Trie.bestFind, hcg, hbf]]
        cases out <;> simp

theorem Trie.bestFind_eq_none_iff (text : List Char) :
    ∀ t : Trie, t.bestFind text = none ↔
      ∀ j, j ≤ text.length → t.find (text.take j) = none := by
  induction text with
  | nil =>
    intro t
    obtain ⟨out, ch⟩ := t
    cases out <;> simp [Trie.bestFind, Trie.find]
  | cons c rest ih =>
    intro t
    obtain ⟨out, ch⟩ := t
    cases hcg : childGet ch c with
    | none =>
      cases out with
      | none =>
        simp only [Trie.bestFind, hcg]
        constructor
        · intro _ j _
          cases j with
          | zero => simp [Trie.find]
          | succ j => simp [Trie.find, hcg]
        · intro _; simp
      | some v =>
        simp only [Trie.bestFind, hcg]
        constructor
        · intro hc; simp at hc
        · intro hall
          have := hall 0 (by omega)
          simp [Trie.find] at this
    | some t' =>
      cases hbf : t'.bestFind rest with
      | some r =>
        rw [show Trie.bestFind (.node out ch) (c :: rest)
          = some (r.1, r.2 + 1) from by simp [Trie.bestFind, hcg, hbf]]
        constructor
        · intro hc; simp at hc
        · intro hall
          have harg : ∀ j, j ≤ rest.length → t'.find (rest.take j) = none := by
            intro j hj
            have := hall (j + 1) (by simpa using hj)
            simpa [Trie.find, hcg, List.take_succ_cons] using this
          have hnone := (ih t').mpr harg
          rw [hbf] at hnone
          simp at hnone
      | none =>
        have hrec := (ih t').mp hbf
        rw [show Trie.bestFind (.node out ch) (c :: rest)
          = out.map (fun v => (v, 0)) from by simp [Trie.bestFind, hcg, hbf]]
        cases out with
        | none =>
          simp only [Option.map_none']
          constructor
          · intro _ j hj
            cases j with
            | zero => simp [Trie.find]
            | succ j =>
              simp only [List.take_succ_cons, Trie.find, hcg]
              exact hrec j (by simp at hj; omega)
          · intro _; trivial
        | some v =>
          constructor
          · intro hc; simp at hc
          · intro hall
            have := hall 0 (by omega)
            simp [Trie.find] at this

theorem Trie.bestFind_eq_some_iff (text : List Char) :
    ∀ (t : Trie) (v : String) (k : Nat), t.bestFind text = some (v, k) ↔
      k ≤ text.length ∧ t.find (text.take k) = some v ∧
        ∀ j, k < j → j ≤ text.length → t.find (text.take j) = none := by
  induction text with
  | nil =>
    intro t v k
    obtain ⟨out, ch⟩ := t
    cases out with
    | none =>
      simp only [Trie.bestFind, Option.map_none]
      constructor
      · intro hc; simp at hc
      · rintro ⟨hk, hfind, _⟩
        have hk0 : k = 0 := by simpa using hk
        subst hk0
        simp [Trie.find] at hfind
    | some w =>
      simp only [Trie.bestFind, Option.map_some]
      constructor
      · intro h
        have hpair := Option.some.inj h
        rw [Prod.mk.injEq] at hpair
        obtain ⟨h1, h2⟩ := hpair
        subst h2
        refine ⟨by omega, by simpa [Trie.find] using h1, ?_⟩
        intro j h1 h2
        simp at h2
        omega
      · rintro ⟨hk, hfind, _⟩
        have hk0 : k = 0 := by simpa using hk
        subst hk0
        simp only [List.take_nil, Trie.find] at hfind
        simp [hfind]
  | cons c rest ih =>
    intro t v k
    obtain ⟨out, ch⟩ := t
    cases hcg : childGet ch c with
    | none =>
      have hfs : ∀ j, Trie.find (.node out ch) ((c :: rest).take (j + 1)) = none := by
        intro j
        simp [Trie.find, hcg]
      rw [show Trie.bestFind (.node out ch) (c :: rest)
        = out.map (fun v => (v, 0)) from by simp [Trie.bestFind, hcg]]
      cases out with
      | none =>
        simp only [Option.map_none']
        constructor
        · intro hc; simp at hc
        · rintro ⟨hk, hfind, _⟩
          cases k with
          | zero => simp [Trie.find] at hfind
          | succ k => rw [hfs k] at hfind; simp at hfind
      | some w =>
        simp only [Option.map_some']
        constructor
        · intro h
          have hpair := Option.some.inj h
          rw [Prod.mk.injEq] at hpair
          obtain ⟨h1, h2⟩ := hpair
          subst h2
          refine ⟨by omega, by simpa [Trie.find] using h1, ?_⟩
          intro j hj _
          cases j with
          | zero => omega
          | succ j => exact hfs j
        · rintro ⟨hk, hfind, _⟩
          cases k with
          | zero =>
            simp only [List.take_zero, Trie.find] at hfind
            simp [Option.some.inj hfind]
          | succ k => rw [hfs k] at hfind; simp at hfind
    | some t' =>
      have hstep : ∀ j, Trie.find (.node out ch) ((c :: rest).take (j + 1))
          = t'.find (rest.take j) := by
        intro j
        simp [Trie.find, hcg]
      cases hbf : t'.bestFind rest with
      | some r =>
        obtain ⟨w, k'⟩ := r
        have hrec := (ih t' w k').mp hbf
        rw [show Trie.bestFind (.node out ch) (c :: rest)
          = some (w, k' + 1) from by simp [Trie.bestFind, hcg, hbf]]
        constructor
        · intro h
          have hpair := Option.some.inj h
          rw [Prod.mk.injEq] at hpair
          obtain ⟨h1, h2⟩ := hpair
          subst h1 h2
          refine ⟨by simpa using hrec.1, by rw [hstep]; exact hrec.2.1, ?_⟩
          intro j hj hj'
          cases j with
          | zero => omega
          | succ j =>
            rw [hstep]
            exact hrec.2.2 j (by omega) (by simpa using hj')
        · rintro ⟨hk, hfind, hmax⟩
          cases k with
          | zero =>
            exfalso
            have := hmax (k' + 1) (by omega) (by simpa using hrec.1)
            rw [hstep, hrec.2.1] at this
            simp at this
          | succ k =>
            rw [hstep] at hfind
            have hkk : k = k' := by
              by_contra hne
              rcases Nat.lt_or_ge k k' with hlt | hge
              · have := hrec.2.2 (k + 1)
                rcases Nat.lt_or_ge (k + 1) (k' + 1) with _ | _
                · -- k + 1 ≤ k' : deeper max at k' contradicts find at k being max?
                  -- use hmax at k' + 1
                  have h2 := hmax (k' + 1) (by omega) (by simpa using hrec.1)
                  rw [hstep, hrec.2.1] at h2
                  simp at h2
                · omega
              · have hgt : k' < k := by omega
                have := hrec.2.2 k hgt (by simpa using hk)
                rw [this] at hfind
                simp at hfind
            subst hkk
            rw [hrec.2.1] at hfind
            simp [Option.some.inj hfind]
      | none =>
        have hrec := (Trie.bestFind_eq_none_iff rest t').mp hbf
        rw [show Trie.bestFind (.node out ch) (c :: rest)
          = out.map (fun v => (v, 0)) from by simp [Trie.bestFind, hcg, hbf]]
        cases out with
        | none =>
          simp only [Option.map_none']
          constructor
          · intro hc; simp at hc
          · rintro ⟨hk, hfind, _⟩
            cases k with
            | zero => simp [Trie.find] at hfind
            | succ k =>
              rw [hstep, hrec k (by simpa using hk)] at hfind
              simp at hfind
        | some w =>
          simp only [Option.map_some']
          constructor
          · intro h
            have hpair := Option.some.inj h
            rw [Prod.mk.injEq] at hpair
            obtain ⟨h1, h2⟩ := hpair
            subst h2
            refine ⟨by omega, by simpa [Trie.find] using h1, ?_⟩
            intro j hj hj'
            cases j with
            | zero => omega
            | succ j => rw [hstep]; exact hrec j (by simpa using hj')
          · rintro ⟨hk, hfind, _⟩
            cases k with
            | zero =>
              simp only [List.take_zero, Trie.find] at hfind
              simp [Option.some.inj hfind]
            | succ k =>
              rw [hstep, hrec k (by simpa using hk)] at hfind
              simp at hfind

theorem Trie.find_nil_build (table : MapTable) : (Trie.build table).find [] = none := by
  have key : ∀ (es : MapTable) (t0 : Trie),
      (es.foldl (fun t e => if e.1.isEmpty then t else t.insert e.1 e.2) t0).find []
        = t0.find [] := by
    intro es
    induction es with
    | nil => intro t0; rfl
    | cons e rest ih =>
      intro t0
      rw [List.foldl_cons, ih]
      by_cases he : e.1.isEmpty
      · rw [if_pos he]
      · rw [if_neg he, Trie.find_insert]
        rw [if_neg (by
          intro hc
          exact he (by rw [← hc]; rfl))]
  rw [Trie.build, key table Trie.empty]
  rfl

theorem aho_eq_fxHashmap (table : MapTable) (window : List Char) :
    ahoCorasickLookup table window = fxHashmapLookup table window := by
  have htk : ∀ j : Nat, 1 ≤ j → j ≤ window.length → window.take j ≠ [] := by
    intro j h1 h2 hc
    have := congrArg List.length hc
    simp only [List.length_take, List.length_nil] at this
    omega
  rw [ahoCorasickLookup, Trie.walk_spec]
  cases hfx : fxHashmapLookup table window with
  | some r =>
    obtain ⟨v, m⟩ := r
    rw [fxHashmapLookup, fxGo_eq_some_iff] at hfx
    obtain ⟨h1, h2, hlk, hmax⟩ := hfx
    have hmw : m ≤ window.length := le_trans h2 (Nat.min_le_right _ _)
    have hbf : (Trie.build table).bestFind window = some (v, m) := by
      rw [Trie.bestFind_eq_some_iff]
      refine ⟨hmw, ?_, ?_⟩
      · rw [Trie.find_build _ _ (htk m h1 hmw)]
        exact hlk
      · intro j hj hj'
        cases j with
        | zero => omega
        | succ j =>
          rw [Trie.find_build _ _ (htk (j + 1) (by omega) hj')]
          rcases le_or_lt (j + 1) (min (maxPatLen table) window.length)
            with hle | hgt
          · exact hmax (j + 1) hj hle
          · exact lookupKey_take_eq_none_of_gt hj' (by omega)
    rw [hbf]
    simp
  | none =>
    rw [fxHashmapLookup, fxGo_eq_none_iff] at hfx
    have hbf : (Trie.build table).bestFind window = none := by
      rw [Trie.bestFind_eq_none_iff]
      intro j hj
      cases j with
      | zero => exact Trie.find_nil_build table
      | succ j =>
        rw [Trie.find_build _ _ (htk (j + 1) (by omega) hj)]
        rcases le_or_lt (j + 1) (min (maxPatLen table) window.length)
          with hle | hgt
        · exact hfx (j + 1) (by omega) hle
        · exact lookupKey_take_eq_none_of_gt hj (by omega)
    rw [hbf]

/-! ### Lemmas: characterizing the prefix-indexed strategy -/

theorem insertDesc_perm (e : Pattern × String) (l : MapTable) :
    (insertDesc e l).Perm (e :: l) := by
  induction l with
  | nil => exact List.Perm.refl _
  | cons f rest ih =>
    rw [insertDesc]
    by_cases h : e.1.length ≤ f.1.length
    · rw [if_pos h]
      exact (List.Perm.cons f ih).trans (List.Perm.swap e f rest)
    · rw [if_neg h]

theorem sortDesc_perm (l : MapTable) : (sortDesc l).Perm l := by
  induction l with
  | nil => exact List.Perm.refl _
  | cons e rest ih =>
    exact (insertDesc_perm e (sortDesc rest)).trans (List.Perm.cons e ih)

theorem insertDesc_pairwise (e : Pattern × String) (l : MapTable)
    (h : l.Pairwise (fun a b => b.1.length ≤ a.1.length)) :
    (insertDesc e l).Pairwise (fun a b => b.1.length ≤ a.1.length) := by
  induction l with
  | nil => simp [insertDesc]
  | cons f rest ih =>
    rw [List.pairwise_cons] at h
    rw [insertDesc]
    by_cases hle : e.1.length ≤ f.1.length
    · rw [if_pos hle]
      rw [List.pairwise_cons]
      constructor
      · intro g hg
        rcases List.mem_cons.mp ((insertDesc_perm e rest).mem_iff.mp hg)
          with hge | hgr
        · rw [hge]; exact hle
        · exact h.1 g hgr
      · exact ih h.2
    · rw [if_neg hle]
      rw [List.pairwise_cons]
      constructor
      · intro g hg
        rcases List.mem_cons.mp hg with hgf | hgr
        · rw [hgf]; omega
        · exact le_trans (h.1 g hgr) (by omega)
      · exact List.pairwise_cons.mpr h

theorem sortDesc_pairwise (l : MapTable) :
    (sortDesc l).Pairwise (fun a b => b.1.length ≤ a.1.length) := by
  induction l with
  | nil => simp [sortDesc]
  | cons e rest ih => exact insertDesc_pairwise e _ ih

theorem find_sorted_max {l : MapTable} {window : List Char}
    (hpw : l.Pairwise (fun a b => b.1.length ≤ a.1.length))
    {e : Pattern × String}
    (hf : l.find? (fun e => isPfx e.1 window) = some e) :
    isPfx e.1 window = true ∧ e ∈ l ∧
      ∀ f ∈ l, isPfx f.1 window = true → f.1.length ≤ e.1.length := by
  induction l with
  | nil => simp at hf
  | cons g rest ih =>
    rw [List.pairwise_cons] at hpw
    cases hg : isPfx g.1 window with
    | true =>
      rw [List.find?_cons_of_pos _ (by simpa using hg)] at hf
      cases Option.some.inj hf
      refine ⟨hg, List.mem_cons_self _ _, ?_⟩
      intro f hfm _
      rcases List.mem_cons.mp hfm with hfg | hfr
      · rw [hfg]
      · exact hpw.1 f hfr
    | false =>
      rw [List.find?_cons_of_neg _ (by simpa using hg)] at hf
      obtain ⟨hp, hm, hmax⟩ := ih hpw.2 hf
      refine ⟨hp, List.mem_cons_of_mem _ hm, ?_⟩
      intro f hfm hfp
      rcases List.mem_cons.mp hfm with hfg | hfr
      · rw [hfg] at hfp; rw [hfp] at hg; cases hg
      · exact hmax f hfr hfp

theorem mem_bucket_iff {table : MapTable} {c : Char} {e : Pattern × String} :
    e ∈ bucket table c ↔ e ∈ table ∧ e.1.headI = c ∧ e.1 ≠ [] := by
  rw [bucket, List.mem_filter]
  simp [List.isEmpty_iff]

theorem fast_eq_fxHashmap (table : MapTable) (window : List Char)
    (hnd : (table.map Prod.fst).Nodup) :
    fastLookup table window = fxHashmapLookup table window := by
  cases hw : window with
  | nil => simp [fastLookup, fxHashmapLookup, fxGo]
  | cons c w =>
    subst hw
    have hmem_of_lk : ∀ (j : Nat) (u : String), 1 ≤ j → j ≤ (c :: w).length →
        lookupKey table ((c :: w).take j) = some u →
        ((c :: w).take j, u) ∈ sortDesc (bucket table c) := by
      intro j u h1 h2 hlk
      apply (sortDesc_perm _).mem_iff.mpr
      rw [mem_bucket_iff]
      refine ⟨lookupKey_mem hlk, ?_, ?_⟩
      · cases j with
        | zero => omega
        | succ j => simp [List.take_succ_cons]
      · cases j with
        | zero => omega
        | succ j => simp [List.take_succ_cons]
    cases hff : (sortDesc (bucket table c)).find? (fun e => isPfx e.1 (c :: w)) with
    | some e =>
      obtain ⟨hpfx, hmem, hmax⟩ := find_sorted_max (sortDesc_pairwise _) hff
      have hb := (sortDesc_perm _).mem_iff.mp hmem
      rw [mem_bucket_iff] at hb
      have hpfx' := isPfx_iff.mp hpfx
      have hlen1 : 1 ≤ e.1.length := by
        cases he : e.1 with
        | nil => exact absurd he hb.2.2
        | cons a as => simp [he]
      simp only [fastLookup, hff, Option.map_some']
      symm
      rw [fxHashmapLookup, fxGo_eq_some_iff]
      refine ⟨hlen1, ?_, ?_, ?_⟩
      · exact le_min (length_le_maxPatLen hb.1) hpfx'.1
      · rw [hpfx'.2]
        have : (e.1, e.2) ∈ table := by simpa using hb.1
        exact lookupKey_of_mem hnd this
      · intro j hj hj'
        by_contra hne
        cases hlkj : lookupKey table ((c :: w).take j) with
        | none => exact hne hlkj
        | some u =>
          have hjlen : j ≤ (c :: w).length := le_trans hj' (Nat.min_le_right _ _)
          have hm := hmem_of_lk j u (by omega) hjlen hlkj
          have h3 := hmax _ hm (isPfx_take hjlen)
          rw [show ((c :: w).take j, u).1 = (c :: w).take j from rfl,
            List.length_take, Nat.min_eq_left hjlen] at h3
          omega
    | none =>
      have hnp := List.find?_eq_none.mp hff
      simp only [fastLookup, hff, Option.map_none']
      symm
      rw [fxHashmapLookup, fxGo_eq_none_iff]
      intro m h1 hm
      cases hlk : lookupKey table ((c :: w).take m) with
      | none => rfl
      | some u =>
        exfalso
        have hmlen : m ≤ (c :: w).length := le_trans hm (Nat.min_le_right _ _)
        have hmem := hmem_of_lk m u h1 hmlen hlk
        exact absurd (isPfx_take hmlen) (by simpa using hnp _ hmem)

/-- **C1**: for every mapping table (each grapheme key bound at most once,
as in a hash map) and every input window, the hash-table (`fx_hashmap`),
multi-pattern automaton (`aho_corasick`) and prefix-indexed (`fast_lookup`)
strategies return identical matched output and identical consumed lengths
under the shared lookup contract. -/
theorem c1_matching_engine_equivalence (table : MapTable) (window : List Char)
    (hnd : (table.map Prod.fst).Nodup) :
    ahoCorasickLookup table window = fxHashmapLookup table window ∧
      fastLookup table window = fxHashmapLookup table window :=
  ⟨aho_eq_fxHashmap table window, fast_eq_fxHashmap table window hnd⟩

/-- Witness for C1 at a concrete mapping table and window. -/
theorem c1_matching_engine_equivalence_witness :
    (([("ab".toList, "X"), ("a".toList, "Y"), ("b".toList, "Z")].map
        Prod.fst).Nodup) ∧
      (ahoCorasickLookup [("ab".toList, "X"), ("a".toList, "Y"), ("b".toList, "Z")]
          "abc".toList
        = fxHashmapLookup [("ab".toList, "X"), ("a".toList, "Y"), ("b".toList, "Z")]
          "abc".toList ∧
        fastLookup [("ab".toList, "X"), ("a".toList, "Y"), ("b".toList, "Z")]
          "abc".toList
        = fxHashmapLookup [("ab".toList, "X"), ("a".toList, "Y"), ("b".toList, "Z")]
          "abc".toList) :=
  ⟨by decide, c1_matching_engine_equivalence _ _ (by decide)⟩


/-! ### Lemmas: the tokenizer -/

theorem longestEntry_some {table : List Entry} {text : List Char} {e : Entry}
    (h : longestEntry table text = some e) :
    e ∈ table ∧ 0 < e.grapheme.length ∧ isPfx e.grapheme text = true := by
  induction table with
  | nil => simp [longestEntry] at h
  | cons f rest ih =>
    simp only [longestEntry] at h
    split at h
    · rename_i hcond
      cases Option.some.inj h
      simp only [Bool.and_eq_true, decide_eq_true_iff] at hcond
      exact ⟨List.mem_cons_self _ _, hcond.1.2, hcond.1.1⟩
    · obtain ⟨hm, hp, hx⟩ := ih h
      exact ⟨List.mem_cons_of_mem _ hm, hp, hx⟩

theorem longestEntry_none {table : List Entry} {text : List Char}
    (h : longestEntry table text = none) :
    ∀ f ∈ table, 0 < f.grapheme.length → isPfx f.grapheme text = false := by
  induction table with
  | nil => intro f hf; simp at hf
  | cons g rest ih =>
    simp only [longestEntry] at h
    split at h
    · exact absurd h (by simp)
    · rename_i hcond
      intro f hf hlen
      rcases List.mem_cons.mp hf with rfl | hfr
      · rw [h] at hcond
        simp only [Bool.and_eq_true, decide_eq_true_iff, not_and] at hcond
        cases hx : isPfx f.grapheme text with
        | false => rfl
        | true => simp [hx, hlen] at hcond
      · exact ih h f hfr hlen

theorem longestEntry_max {table : List Entry} {text : List Char} :
    ∀ e : Entry, longestEntry table text = some e →
    ∀ f ∈ table, isPfx f.grapheme text = true → 0 < f.grapheme.length →
      f.grapheme.length ≤ e.grapheme.length := by
  induction table with
  | nil => intro e h; simp [longestEntry] at h
  | cons g rest ih =>
    intro e h f hf hpfx hlen
    simp only [longestEntry] at h
    rcases List.mem_cons.mp hf with rfl | hfr
    · split at h
      · cases Option.some.inj h; exact le_refl _
      · rename_i hcond
        cases hbest : longestEntry rest text with
        | none =>
          rw [hbest] at hcond
          simp [hpfx, hlen] at hcond
        | some b =>
          rw [hbest] at hcond h
          cases Option.some.inj h
          simp only [Bool.and_eq_true, decide_eq_true_iff, hpfx, hlen,
            true_and, not_true_eq_false, imp_false, Bool.not_eq_true,
            decide_eq_false_iff_not, not_le] at hcond
          omega
    · split at h
      · rename_i hcond
        cases Option.some.inj h
        cases hbest : longestEntry rest text with
        | none => exact absurd (longestEntry_none hbest f hfr hlen) (by simp [hpfx])
        | some b =>
          rw [hbest] at hcond
          simp only [Bool.and_eq_true, decide_eq_true_iff] at hcond
          exact le_trans (ih b hbest f hfr hpfx hlen) hcond.2
      · exact ih e h f hfr hpfx hlen

theorem tokenizeFuel_congr (table : List Entry) :
    ∀ (fuel fuel' : Nat) (text : List Char), text.length ≤ fuel →
      text.length ≤ fuel' →
      tokenizeFuel table fuel text = tokenizeFuel table fuel' text := by
  intro fuel
  induction fuel with
  | zero =>
    intro fuel' text h h'
    cases text with
    | nil => cases fuel' <;> rfl
    | cons c rest => simp at h
  | succ fuel ih =>
    intro fuel' text h h'
    cases text with
    | nil => cases fuel' <;> rfl
    | cons c rest =>
      cases fuel' with
      | zero => simp at h'
      | succ fuel'' =>
        rw [tokenizeFuel, tokenizeFuel]
        cases hle : longestEntry table (c :: rest) with
        | some e =>
          have hpos := (longestEntry_some hle).2.1
          have hplen := (isPfx_iff.mp (longestEntry_some hle).2.2).1
          simp only [hle]
          congr 1
          apply ih
          · simp only [List.length_drop]
            simp only [List.length_cons] at h ⊢
            omega
          · simp only [List.length_drop]
            simp only [List.length_cons] at h' ⊢
            omega
        | none =>
          simp only [hle]
          congr 1
          apply ih
          · simp only [List.length_cons] at h; omega
          · simp only [List.length_cons] at h'; omega

theorem tokenize_eq_fuel {table : List Entry} {text : List Char} {fuel : Nat}
    (h : text.length ≤ fuel) :
    tokenize table text = tokenizeFuel table fuel text :=
  tokenizeFuel_congr table _ _ _ (le_refl _) h

theorem concatToks_tokenizeFuel (table : List Entry) :
    ∀ (fuel : Nat) (text : List Char), text.length ≤ fuel →
      concatToks (tokenizeFuel table fuel text) = text := by
  intro fuel
  induction fuel with
  | zero =>
    intro text h
    cases text with
    | nil => rfl
    | cons c rest => simp at h
  | succ fuel ih =>
    intro text h
    cases text with
    | nil => rfl
    | cons c rest =>
      rw [tokenizeFuel]
      cases hle : longestEntry table (c :: rest) with
      | some e =>
        have hs := longestEntry_some hle
        have hpfx := isPfx_iff.mp hs.2.2
        simp only [concatToks]
        rw [ih _ (by
          simp only [List.length_drop, List.length_cons] at h ⊢
          omega)]
        conv_rhs => rw [← List.take_append_drop e.grapheme.length (c :: rest)]
        rw [hpfx.2]
      | none =>
        simp only [concatToks]
        rw [ih rest (by simp only [List.length_cons] at h; omega)]
        simp

theorem concatToks_tokenize (table : List Entry) (text : List Char) :
    concatToks (tokenize table text) = text :=
  concatToks_tokenizeFuel table _ _ (le_refl _)

theorem tokenize_wf (table : List Entry) :
    ∀ (fuel : Nat) (text : List Char), ∀ t ∈ tokenizeFuel table fuel text,
      (∃ e ∈ table, t = tokenOf e) ∨
        (t.cls = .other ∧ t.phoneme = none ∧ ∃ c, t.text = [c]) := by
  intro fuel
  induction fuel with
  | zero => intro text t ht; simp [tokenizeFuel] at ht
  | succ fuel ih =>
    intro text t ht
    cases text with
    | nil => simp [tokenizeFuel] at ht
    | cons c rest =>
      rw [tokenizeFuel] at ht
      cases hle : longestEntry table (c :: rest) with
      | some e =>
        rw [hle] at ht
        rcases List.mem_cons.mp ht with rfl | htl
        · exact Or.inl ⟨e, (longestEntry_some hle).1, rfl⟩
        · exact ih _ t htl
      | none =>
        rw [hle] at ht
        rcases List.mem_cons.mp ht with rfl | htl
        · exact Or.inr ⟨rfl, rfl, c, rfl⟩
        · exact ih _ t htl


theorem tokenize_cons_of_some {tab : List Entry} {text : List Char} {e : Entry}
    (h : longestEntry tab text = some e) (hnz : text ≠ []) :
    tokenize tab text = ⟨e.cls, e.grapheme, some e.phoneme⟩ ::
      tokenize tab (text.drop e.grapheme.length) := by
  cases text with
  | nil => exact absurd rfl hnz
  | cons c rest =>
    have hpos := (longestEntry_some h).2.1
    have hplen := (isPfx_iff.mp (longestEntry_some h).2.2).1
    simp only [tokenize, List.length_cons, tokenizeFuel, h]
    congr 1
    apply tokenizeFuel_congr
    · simp only [List.length_cons] at hplen
      simp only [List.length_drop, List.length_cons]
      omega
    · exact le_refl _

theorem tokenize_cons_of_none {tab : List Entry} {c : Char} {rest : List Char}
    (h : longestEntry tab (c :: rest) = none) :
    tokenize tab (c :: rest) = ⟨.other, [c], none⟩ :: tokenize tab rest := by
  simp only [tokenize, List.length_cons, tokenizeFuel, h]


/-! Step equations for `renderIndic` (it is compiled by well-founded
recursion, so we expose the cases as lemmas). -/

theorem renderIndic_nil (table : List Entry) : renderIndic table [] = [] := by
  rw [renderIndic.eq_def]

theorem renderIndic_other (table : List Entry) (it : Item) (rest : List Item)
    (hp : it.ph = none) :
    renderIndic table (it :: rest) = it.src ++ renderIndic table rest := by
  cases rest with
  | nil => rw [renderIndic.eq_def]; simp [hp, renderIndic_nil]
  | cons it2 rest2 => rw [renderIndic.eq_def]; simp [hp]

theorem renderIndic_noncons_found (table : List Entry) (it : Item)
    (rest : List Item) {p : String} {e : Entry} (hp : it.ph = some p)
    (hc : ¬it.cls = .consonant) (hf : findByPhCls table p it.cls = some e) :
    renderIndic table (it :: rest) = e.grapheme ++ renderIndic table rest := by
  cases rest with
  | nil => rw [renderIndic.eq_def]; simp [hp, hc, hf, renderIndic_nil]
  | cons it2 rest2 => rw [renderIndic.eq_def]; simp [hp, hc, hf]

theorem renderIndic_noncons_miss (table : List Entry) (it : Item)
    (rest : List Item) {p : String} (hp : it.ph = some p)
    (hc : ¬it.cls = .consonant) (hf : findByPhCls table p it.cls = none) :
    renderIndic table (it :: rest) = it.src ++ renderIndic table rest := by
  cases rest with
  | nil => rw [renderIndic.eq_def]; simp [hp, hc, hf, renderIndic_nil]
  | cons it2 rest2 => rw [renderIndic.eq_def]; simp [hp, hc, hf]

theorem renderIndic_cons_miss (table : List Entry) (it : Item)
    (rest : List Item) {p : String} (hp : it.ph = some p)
    (hc : it.cls = .consonant) (hf : findByPhCls table p .consonant = none) :
    renderIndic table (it :: rest) = it.src ++ renderIndic table rest := by
  cases rest with
  | nil => rw [renderIndic.eq_def]; simp [hp, hc, hf, renderIndic_nil]
  | cons it2 rest2 => rw [renderIndic.eq_def]; simp [hp, hc, hf]

theorem renderIndic_cons_end (table : List Entry) (it : Item) {p : String}
    {e : Entry} (hp : it.ph = some p) (hc : it.cls = .consonant)
    (hf : findByPhCls table p .consonant = some e) :
    renderIndic table [it] = e.grapheme ++ viramaG table := by
  rw [renderIndic.eq_def]; simp [hp, hc, hf]

theorem renderIndic_cons_inh (table : List Entry) (it it2 : Item)
    (rest : List Item) {p : String} {e : Entry} (hp : it.ph = some p)
    (hc : it.cls = .consonant) (hf : findByPhCls table p .consonant = some e)
    (h2 : it2.cls = .vowel) (hv : it2.ph = some indicInherent) :
    renderIndic table (it :: it2 :: rest) =
      e.grapheme ++ renderIndic table rest := by
  rw [renderIndic.eq_def]; simp [hp, hc, hf, h2, hv]

theorem renderIndic_cons_vowel (table : List Entry) (it it2 : Item)
    (rest : List Item) {p v : String} {e m : Entry} (hp : it.ph = some p)
    (hc : it.cls = .consonant) (hf : findByPhCls table p .consonant = some e)
    (h2 : it2.cls = .vowel) (hv : it2.ph = some v) (hne : ¬v = indicInherent)
    (hm : findByPhCls table v .vowelSign = some m) :
    renderIndic table (it :: it2 :: rest) =
      e.grapheme ++ m.grapheme ++ renderIndic table rest := by
  rw [renderIndic.eq_def]; simp [hp, hc, hf, h2, hv, hne, hm]

theorem renderIndic_cons_vowel_miss (table : List Entry) (it it2 : Item)
    (rest : List Item) {p v : String} {e : Entry} (hp : it.ph = some p)
    (hc : it.cls = .consonant) (hf : findByPhCls table p .consonant = some e)
    (h2 : it2.cls = .vowel) (hv : it2.ph = some v) (hne : ¬v = indicInherent)
    (hm : findByPhCls table v .vowelSign = none) :
    renderIndic table (it :: it2 :: rest) =
      e.grapheme ++ viramaG table ++ renderIndic table (it2 :: rest) := by
  rw [renderIndic.eq_def]; simp [hp, hc, hf, h2, hv, hne, hm,
    List.append_assoc]

theorem renderIndic_cons_vowel_noph (table : List Entry) (it it2 : Item)
    (rest : List Item) {p : String} {e : Entry} (hp : it.ph = some p)
    (hc : it.cls = .consonant) (hf : findByPhCls table p .consonant = some e)
    (h2 : it2.cls = .vowel) (hv : it2.ph = none) :
    renderIndic table (it :: it2 :: rest) =
      e.grapheme ++ viramaG table ++ renderIndic table (it2 :: rest) := by
  rw [renderIndic.eq_def]; simp [hp, hc, hf, h2, hv, List.append_assoc]

theorem renderIndic_cons_virama (table : List Entry) (it it2 : Item)
    (rest : List Item) {p : String} {e : Entry} (hp : it.ph = some p)
    (hc : it.cls = .consonant) (hf : findByPhCls table p .consonant = some e)
    (h2 : it2.cls = .virama) :
    renderIndic table (it :: it2 :: rest) =
      e.grapheme ++ viramaG table ++ renderIndic table rest := by
  rw [renderIndic.eq_def]; simp [hp, hc, hf, h2, List.append_assoc]

theorem renderIndic_cons_other (table : List Entry) (it it2 : Item)
    (rest : List Item) {p : String} {e : Entry} (hp : it.ph = some p)
    (hc : it.cls = .consonant) (hf : findByPhCls table p .consonant = some e)
    (h2 : ¬it2.cls = .vowel) (h3 : ¬it2.cls = .virama) :
    renderIndic table (it :: it2 :: rest) =
      e.grapheme ++ viramaG table ++ renderIndic table (it2 :: rest) := by
  rw [renderIndic.eq_def]; simp [hp, hc, hf, h2, h3, List.append_assoc]


/-! ### Lemmas: path flattening (spec §4.5) -/

theorem composeEntry_grapheme (br : String → String) (f : Family)
    (tgt : List Entry) (e : Entry) :
    (composeEntry br f tgt e).grapheme = e.grapheme := rfl

theorem longestD_direct (br : String → String) (f : Family)
    (tgt : List Entry) (table : List Entry) (text : List Char) :
    longestD (table.map (composeEntry br f tgt)) text =
      (longestEntry table text).map (composeEntry br f tgt) := by
  induction table with
  | nil => rfl
  | cons e rest ih =>
    simp only [List.map_cons]
    rw [longestD, longestEntry, ih]
    simp only [composeEntry_grapheme]
    cases hbest : longestEntry rest text with
    | none => simp
    | some b =>
      simp only [Option.map_some', composeEntry_grapheme]
      split <;> simp

theorem dItemOfEntry_compose (br : String → String) (f : Family)
    (tgt : List Entry) (e : Entry) :
    dItemOfEntry (composeEntry br f tgt e) =
      dOfToken br f tgt ⟨e.cls, e.grapheme, some e.phoneme⟩ := rfl

theorem tokenizeDFuel_direct (br : String → String) (f : Family)
    (tgt : List Entry) (table : List Entry) :
    ∀ (fuel : Nat) (text : List Char),
      tokenizeDFuel (table.map (composeEntry br f tgt)) fuel text =
        (tokenizeFuel table fuel text).map (dOfToken br f tgt) := by
  intro fuel
  induction fuel with
  | zero => intro text; simp [tokenizeDFuel, tokenizeFuel]
  | succ fuel ih =>
    intro text
    cases text with
    | nil => simp [tokenizeDFuel, tokenizeFuel]
    | cons c rest =>
      rw [tokenizeDFuel, tokenizeFuel, longestD_direct]
      cases hle : longestEntry table (c :: rest) with
      | none =>
        simp only [Option.map_none', List.map_cons]
        rw [ih]
        rfl
      | some e =>
        simp only [Option.map_some', List.map_cons, composeEntry_grapheme]
        rw [ih, dItemOfEntry_compose]

theorem tokenizeD_direct (src tgt : ScriptSchema) (text : List Char) :
    tokenizeD (directTable src tgt) text =
      (tokenize src.table text).map
        (dOfToken (bridgeFor src.family tgt.family) tgt.family tgt.table) :=
  tokenizeDFuel_direct _ _ _ _ _ text

theorem dOfItem_itemOfToken (br : String → String) (f : Family)
    (tgt : List Entry) (t : Token) :
    dOfItem br f tgt (itemOfToken t) = dOfToken br f tgt t := by
  cases t with
  | mk cls text ph => cases ph <;> rfl

theorem dOfItem_vowelSign (br : String → String) (f : Family)
    (tgt : List Entry) (t2 : Token) :
    dOfItem br f tgt ⟨t2.phoneme, .vowel, t2.text⟩ =
      { dOfToken br f tgt t2 with
          cls := .vowel,
          out := (dOfToken br f tgt t2).outVow } := by
  cases t2 with
  | mk cls text ph =>
    cases ph with
    | none => rfl
    | some p => cases f <;> rfl

theorem dOfItem_inhItem (br : String → String) (f : Family)
    (tgt : List Entry) :
    dOfItem br f tgt ⟨some indicInherent, .vowel, []⟩ = inhDItem br f tgt := by
  cases f <;> rfl

theorem dOfToken_cls (br : String → String) (f : Family) (tgt : List Entry)
    (t : Token) : (dOfToken br f tgt t).cls = t.cls := by
  cases ht : t.phoneme <;> simp [dOfToken, ht]

theorem resolveD_direct (br : String → String) (f : Family) (tgt : List Entry)
    (toks : List Token) :
    resolveD (inhDItem br f tgt) (toks.map (dOfToken br f tgt)) =
      (resolveIndic indicInherent toks).map (dOfItem br f tgt) := by
  induction toks using resolveIndic.induct indicInherent with
  | case1 => rfl
  | case2 t h =>
    simp [resolveD, resolveIndic, dOfToken_cls, h, dOfItem_itemOfToken,
      dOfItem_inhItem]
  | case3 t h =>
    simp [resolveD, resolveIndic, dOfToken_cls, h, dOfItem_itemOfToken]
  | case4 t t2 rest2 h h2 ih =>
    simp [resolveD, resolveIndic, dOfToken_cls, h, h2, ih,
      dOfItem_itemOfToken, dOfItem_vowelSign]
  | case5 t t2 h h2 h3 =>
    simp [resolveD, resolveIndic, dOfToken_cls, h, h2, h3, fuseNext,
      dOfItem_itemOfToken]
  | case6 t t2 h h2 h3 t3 tail h4 ih =>
    simp only [List.map_cons, resolveD, resolveIndic, dOfToken_cls, h, h2, h3,
      h4, if_true, if_false, reduceCtorEq] at ih ⊢
    simp [h4, ih, dOfItem_itemOfToken]
  | case7 t t2 h h2 h3 t3 tail h4 ih =>
    simp only [List.map_cons, resolveD, resolveIndic, dOfToken_cls, h, h2, h3,
      h4, if_true, if_false, reduceCtorEq] at ih ⊢
    simp [h4, ih, dOfItem_itemOfToken]
  | case8 t t2 rest2 h h2 h3 ih =>
    simp only [List.map_cons] at ih ⊢
    simp [resolveD, resolveIndic, dOfToken_cls, h, h2, h3, ih,
      dOfItem_itemOfToken, dOfItem_inhItem]
  | case9 t t2 rest2 h ih =>
    simp only [List.map_cons] at ih ⊢
    simp [resolveD, resolveIndic, dOfToken_cls, h, ih, dOfItem_itemOfToken]

theorem resolveDTokens_direct (fam : Family) (br : String → String)
    (f : Family) (tgt : List Entry) (toks : List Token) :
    resolveDTokens fam (inhDItem br f tgt) (toks.map (dOfToken br f tgt)) =
      (resolveTokens fam indicInherent toks).map (dOfItem br f tgt) := by
  cases fam with
  | indic => exact resolveD_direct br f tgt toks
  | roman =>
    simp only [resolveDTokens, resolveTokens]
    induction toks with
    | nil => rfl
    | cons t ts ihx => simp only [List.map_cons, ihx, dOfItem_itemOfToken]

theorem dOfItem_cls (br : String → String) (f : Family) (tgt : List Entry)
    (it : Item) : (dOfItem br f tgt it).cls = it.cls := by
  cases h : it.ph <;> simp [dOfItem, h]

theorem dOfItem_src (br : String → String) (f : Family) (tgt : List Entry)
    (it : Item) : (dOfItem br f tgt it).src = it.src := by
  cases h : it.ph <;> simp [dOfItem, h]

theorem dOfItem_out_none {br : String → String} {f : Family}
    {tgt : List Entry} {it : Item} (h : it.ph = none) :
    (dOfItem br f tgt it).out = none := by
  simp [dOfItem, h]

theorem dOfItem_out_indic {br : String → String} {tgt : List Entry}
    {it : Item} {p : String} (h : it.ph = some p) :
    (dOfItem br .indic tgt it).out =
      (findByPhCls tgt (br p) it.cls).map Entry.grapheme := by
  simp [dOfItem, h]

theorem dOfItem_sign_none {br : String → String} {f : Family}
    {tgt : List Entry} {it : Item} (h : it.ph = none) :
    (dOfItem br f tgt it).sign = none := by
  simp [dOfItem, h]

theorem dOfItem_sign_some {br : String → String} {f : Family}
    {tgt : List Entry} {it : Item} {p : String} (h : it.ph = some p) :
    (dOfItem br f tgt it).sign =
      (findByPhCls tgt (br p) .vowelSign).map Entry.grapheme := by
  simp [dOfItem, h]

theorem dOfItem_inh_none {br : String → String} {f : Family}
    {tgt : List Entry} {it : Item} (h : it.ph = none) :
    (dOfItem br f tgt it).inh = false := by
  simp [dOfItem, h]

theorem dOfItem_inh_some {br : String → String} {f : Family}
    {tgt : List Entry} {it : Item} {p : String} (h : it.ph = some p) :
    (dOfItem br f tgt it).inh = decide (br p = indicInherent) := by
  simp [dOfItem, h]

theorem emitD_nil (vir : List Char) : emitIndic vir [] = [] := rfl

theorem emitD_single_none (vir : List Char) (it : DItem) (h : it.out = none) :
    emitIndic vir [it] = it.src := by
  simp [emitIndic, h]

theorem emitD_single_cons (vir : List Char) (it : DItem) {g : List Char}
    (h : it.out = some g) (hc : it.cls = .consonant) :
    emitIndic vir [it] = g ++ vir := by
  simp [emitIndic, h, hc]

theorem emitD_single_noncons (vir : List Char) (it : DItem) {g : List Char}
    (h : it.out = some g) (hc : ¬it.cls = .consonant) :
    emitIndic vir [it] = g := by
  simp [emitIndic, h, hc]

theorem emitD_cons_none (vir : List Char) (it it2 : DItem) (r : List DItem)
    (h : it.out = none) :
    emitIndic vir (it :: it2 :: r) = it.src ++ emitIndic vir (it2 :: r) := by
  simp [emitIndic, h]

theorem emitD_cons_inh (vir : List Char) (it it2 : DItem) (r : List DItem)
    {g : List Char} (h : it.out = some g) (hc : it.cls = .consonant)
    (h2 : it2.cls = .vowel) (hi : it2.inh = true) :
    emitIndic vir (it :: it2 :: r) = g ++ emitIndic vir r := by
  simp [emitIndic, h, hc, h2, hi]

theorem emitD_cons_sign (vir : List Char) (it it2 : DItem) (r : List DItem)
    {g m : List Char} (h : it.out = some g) (hc : it.cls = .consonant)
    (h2 : it2.cls = .vowel) (hi : it2.inh = false) (hm : it2.sign = some m) :
    emitIndic vir (it :: it2 :: r) = g ++ m ++ emitIndic vir r := by
  simp [emitIndic, h, hc, h2, hi, hm]

theorem emitD_cons_signmiss (vir : List Char) (it it2 : DItem)
    (r : List DItem) {g : List Char} (h : it.out = some g)
    (hc : it.cls = .consonant) (h2 : it2.cls = .vowel) (hi : it2.inh = false)
    (hm : it2.sign = none) :
    emitIndic vir (it :: it2 :: r) = g ++ vir ++ emitIndic vir (it2 :: r) := by
  simp [emitIndic, h, hc, h2, hi, hm]

theorem emitD_cons_virama (vir : List Char) (it it2 : DItem) (r : List DItem)
    {g : List Char} (h : it.out = some g) (hc : it.cls = .consonant)
    (h3 : it2.cls = .virama) :
    emitIndic vir (it :: it2 :: r) = g ++ vir ++ emitIndic vir r := by
  simp [emitIndic, h, hc, h3]

theorem emitD_cons_other (vir : List Char) (it it2 : DItem) (r : List DItem)
    {g : List Char} (h : it.out = some g) (hc : it.cls = .consonant)
    (h2 : ¬it2.cls = .vowel) (h3 : ¬it2.cls = .virama) :
    emitIndic vir (it :: it2 :: r) = g ++ vir ++ emitIndic vir (it2 :: r) := by
  simp [emitIndic, h, hc, h2, h3]

theorem emitD_noncons (vir : List Char) (it it2 : DItem) (r : List DItem)
    {g : List Char} (h : it.out = some g) (hc : ¬it.cls = .consonant) :
    emitIndic vir (it :: it2 :: r) = g ++ emitIndic vir (it2 :: r) := by
  simp [emitIndic, h, hc]

theorem applyBridge_eq_map (br : String → String) (items : List Item) :
    applyBridge br items = items.map (bridgeItem br) := rfl

theorem emitRoman_direct (br : String → String) (tgt : List Entry)
    (items : List Item) :
    emitRoman (items.map (dOfItem br .roman tgt)) =
      renderRoman tgt (applyBridge br items) := by
  induction items with
  | nil => rfl
  | cons it rest ih =>
    cases hph : it.ph with
    | none =>
      simp only [List.map_cons, applyBridge, emitRoman, renderRoman] at ih ⊢
      simp [dOfItem, hph, ih]
    | some p =>
      cases hf : findByPh tgt (br p) with
      | some e =>
        simp only [List.map_cons, applyBridge, emitRoman, renderRoman] at ih ⊢
        simp [dOfItem, hph, hf, ih]
      | none =>
        simp only [List.map_cons, applyBridge, emitRoman, renderRoman] at ih ⊢
        simp [dOfItem, hph, hf, ih]

theorem emitIndic_direct (br : String → String) (tgt : List Entry) :
    ∀ (n : Nat) (items : List Item), items.length ≤ n →
      emitIndic (viramaG tgt) (items.map (dOfItem br .indic tgt)) =
        renderIndic tgt (applyBridge br items) := by
  intro n
  induction n with
  | zero =>
    intro items hlen
    have h0 : items = [] := by
      cases items with
      | nil => rfl
      | cons a b => simp at hlen
    subst h0
    simp [applyBridge, renderIndic_nil, emitD_nil]
  | succ n ih =>
    intro items hlen
    match items with
    | [] => simp [applyBridge, renderIndic_nil, emitD_nil]
    | [it] =>
      simp only [List.map_cons, List.map_nil, applyBridge_eq_map]
      cases hph : it.ph with
      | none =>
        rw [renderIndic_other tgt (bridgeItem br it) []
            (by simp [bridgeItem, hph]),
          renderIndic_nil, emitD_single_none _ _ (dOfItem_out_none hph),
          dOfItem_src]
        simp [bridgeItem]
      | some p =>
        by_cases hcons : it.cls = .consonant
        · cases hf : findByPhCls tgt (br p) .consonant with
          | some e =>
            rw [renderIndic_cons_end tgt (bridgeItem br it)
                (by simp [bridgeItem, hph]) hcons hf,
              emitD_single_cons _ _
                (by rw [dOfItem_out_indic hph, hcons, hf]; rfl)
                ((dOfItem_cls br .indic tgt it).trans hcons)]
          | none =>
            rw [renderIndic_cons_miss tgt (bridgeItem br it) []
                (by simp [bridgeItem, hph]) hcons hf,
              renderIndic_nil,
              emitD_single_none _ _
                (by rw [dOfItem_out_indic hph, hcons, hf]; rfl),
              dOfItem_src]
            simp [bridgeItem]
        · cases hf : findByPhCls tgt (br p) it.cls with
          | some e =>
            rw [renderIndic_noncons_found tgt (bridgeItem br it) []
                (by simp [bridgeItem, hph]) hcons hf,
              renderIndic_nil,
              emitD_single_noncons _ _ (by rw [dOfItem_out_indic hph, hf]; rfl)
                (fun hx => hcons ((dOfItem_cls br .indic tgt it).symm.trans hx))]
            simp
          | none =>
            rw [renderIndic_noncons_miss tgt (bridgeItem br it) []
                (by simp [bridgeItem, hph]) hcons hf,
              renderIndic_nil,
              emitD_single_none _ _ (by rw [dOfItem_out_indic hph, hf]; rfl),
              dOfItem_src]
            simp [bridgeItem]
    | it :: it2 :: rest2 =>
      have hlen1 : (it2 :: rest2).length ≤ n := by
        simp only [List.length_cons] at hlen ⊢
        omega
      have hlen2 : rest2.length ≤ n := by
        simp only [List.length_cons] at hlen ⊢
        omega
      have ih1 := ih (it2 :: rest2) hlen1
      have ih2 := ih rest2 hlen2
      simp only [List.map_cons, applyBridge_eq_map] at ih1 ih2 ⊢
      cases hph : it.ph with
      | none =>
        rw [renderIndic_other tgt (bridgeItem br it) _
            (by simp [bridgeItem, hph]),
          emitD_cons_none _ _ _ _ (dOfItem_out_none hph), ih1, dOfItem_src]
        simp [bridgeItem]
      | some p =>
        by_cases hcons : it.cls = .consonant
        · cases hf : findByPhCls tgt (br p) .consonant with
          | none =>
            rw [renderIndic_cons_miss tgt (bridgeItem br it) _
                (by simp [bridgeItem, hph]) hcons hf,
              emitD_cons_none _ _ _ _
                (by rw [dOfItem_out_indic hph, hcons, hf]; rfl),
              ih1, dOfItem_src]
            simp [bridgeItem]
          | some e =>
            have hout : (dOfItem br .indic tgt it).out = some e.grapheme := by
              rw [dOfItem_out_indic hph, hcons, hf]
              rfl
            have hcls : (dOfItem br .indic tgt it).cls = .consonant :=
              (dOfItem_cls br .indic tgt it).trans hcons
            by_cases h2 : it2.cls = .vowel
            · have hcls2 : (dOfItem br .indic tgt it2).cls = .vowel :=
                (dOfItem_cls br .indic tgt it2).trans h2
              cases hv : it2.ph with
              | some v =>
                by_cases hinh : br v = indicInherent
                · rw [renderIndic_cons_inh tgt (bridgeItem br it)
                      (bridgeItem br it2) _ (by simp [bridgeItem, hph]) hcons
                      hf h2 (by simp [bridgeItem, hv, hinh]),
                    emitD_cons_inh _ _ _ _ hout hcls hcls2
                      (by rw [dOfItem_inh_some hv]; simp [hinh]), ih2]
                · cases hm : findByPhCls tgt (br v) .vowelSign with
                  | some m =>
                    rw [renderIndic_cons_vowel tgt (bridgeItem br it)
                        (bridgeItem br it2) _ (by simp [bridgeItem, hph]) hcons
                        hf h2 (by simp [bridgeItem, hv]) hinh hm,
                      emitD_cons_sign _ _ _ _ hout hcls hcls2
                        (by rw [dOfItem_inh_some hv]; simp [hinh])
                        (by rw [dOfItem_sign_some hv, hm]; rfl),
                      ih2]
                  | none =>
                    rw [renderIndic_cons_vowel_miss tgt (bridgeItem br it)
                        (bridgeItem br it2) _ (by simp [bridgeItem, hph]) hcons
                        hf h2 (by simp [bridgeItem, hv]) hinh hm,
                      emitD_cons_signmiss _ _ _ _ hout hcls hcls2
                        (by rw [dOfItem_inh_some hv]; simp [hinh])
                        (by rw [dOfItem_sign_some hv, hm]; rfl),
                      ih1]
              | none =>
                rw [renderIndic_cons_vowel_noph tgt (bridgeItem br it)
                    (bridgeItem br it2) _ (by simp [bridgeItem, hph]) hcons hf
                    h2 (by simp [bridgeItem, hv]),
                  emitD_cons_signmiss _ _ _ _ hout hcls hcls2
                    (dOfItem_inh_none hv) (dOfItem_sign_none hv), ih1]
            · by_cases h3 : it2.cls = .virama
              · rw [renderIndic_cons_virama tgt (bridgeItem br it)
                    (bridgeItem br it2) _ (by simp [bridgeItem, hph]) hcons hf
                    h3,
                  emitD_cons_virama _ _ _ _ hout hcls
                    ((dOfItem_cls br .indic tgt it2).trans h3), ih2]
              · rw [renderIndic_cons_other tgt (bridgeItem br it)
                    (bridgeItem br it2) _ (by simp [bridgeItem, hph]) hcons hf
                    h2 h3,
                  emitD_cons_other _ _ _ _ hout hcls
                    (fun hx => h2 ((dOfItem_cls br .indic tgt it2).symm.trans hx))
                    (fun hx => h3 ((dOfItem_cls br .indic tgt it2).symm.trans hx)),
                  ih1]
        · cases hf : findByPhCls tgt (br p) it.cls with
          | some e =>
            rw [renderIndic_noncons_found tgt (bridgeItem br it) _
                (by simp [bridgeItem, hph]) hcons hf,
              emitD_noncons _ _ _ _ (by rw [dOfItem_out_indic hph, hf]; rfl)
                (fun hx => hcons ((dOfItem_cls br .indic tgt it).symm.trans hx)),
              ih1]
          | none =>
            rw [renderIndic_noncons_miss tgt (bridgeItem br it) _
                (by simp [bridgeItem, hph]) hcons hf,
              emitD_cons_none _ _ _ _ (by rw [dOfItem_out_indic hph, hf]; rfl),
              ih1, dOfItem_src]
            simp [bridgeItem]

theorem convertDirect_eq_convertCore (src tgt : ScriptSchema)
    (text : List Char) :
    convertDirect src tgt text = convertCore src tgt text := by
  have htok := tokenizeD_direct src tgt text
  cases htf : tgt.family with
  | roman =>
    rw [htf] at htok
    simp only [convertDirect, convertCore, htf, render]
    rw [htok, resolveDTokens_direct]
    exact emitRoman_direct _ _ _
  | indic =>
    rw [htf] at htok
    simp only [convertDirect, convertCore, htf, render]
    rw [htok, resolveDTokens_direct]
    exact emitIndic_direct _ _ _ _ (le_refl _)

/-- **C2**: for every pair with a registered precomputed direct path, the
single flattened grapheme→grapheme stage returns exactly the output of
the full hub chain for every input, and the chosen optimization profile
never changes conversion output for any input. -/
theorem c2_precomputation_transparency :
    (∀ (pr : Profile) (src tgt : ScriptSchema),
        registeredDirect pr src tgt = true →
        ∀ text : List Char,
          convertDirect src tgt text = convertCore src tgt text) ∧
      ∀ (pr : Profile) (text : List Char) (a b : String),
        convertWithProfile pr text a b = convertE text a b := by
  constructor
  · intro pr src tgt hreg text
    exact convertDirect_eq_convertCore src tgt text
  · intro pr text a b
    rw [convertWithProfile, convertE]
    cases resolveScript a with
    | none => rfl
    | some src =>
      cases resolveScript b with
      | none => rfl
      | some tgt =>
        by_cases h : registeredDirect pr src tgt = true <;>
          simp [h, convertDirect_eq_convertCore]

/-- Witness for C2: iast→devanagari is registered (selected by the
common-pairs profile and validated by the Path Optimizer), and the
flattened path agrees with the chain on a concrete input. -/
theorem c2_precomputation_transparency_witness :
    registeredDirect .commonPairs iast devanagari = true ∧
      convertDirect iast devanagari "dharma".toList =
        convertCore iast devanagari "dharma".toList ∧
      convertWithProfile .commonPairs "dharma".toList "iast" "devanagari" =
        convertE "dharma".toList "iast" "devanagari" :=
  ⟨by decide,
   c2_precomputation_transparency.1 .commonPairs iast devanagari (by decide)
     "dharma".toList,
   c2_precomputation_transparency.2 .commonPairs "dharma".toList "iast"
     "devanagari"⟩

/-- **C7**: an unregistered script name (after alias resolution) in either
position makes `convert` fail with `SchemaNotFound`, with the same error
before any text is considered: the error is independent of the input. -/
theorem c7_unknown_script_error (a b : String)
    (h : resolveScript a = none ∨ resolveScript b = none) :
    ∃ err : ConvError, ∀ text : List Char, convertE text a b = .error err := by
  cases ha : resolveScript a with
  | none => exact ⟨.schemaNotFound a, fun text => by rw [convertE, ha]⟩
  | some src =>
    cases hb : resolveScript b with
    | none => exact ⟨.schemaNotFound b, fun text => by rw [convertE, ha, hb]⟩
    | some tgt =>
      rcases h with h | h
      · rw [ha] at h; cases h
      · rw [hb] at h; cases h

/-- Witness for C7: an unknown source script name. -/
theorem c7_unknown_script_error_witness :
    (resolveScript "xyzzy" = none ∨ resolveScript "iast" = none) ∧
      ∃ err : ConvError, ∀ text : List Char,
        convertE text "xyzzy" "iast" = .error err :=
  ⟨Or.inl (by decide),
    c7_unknown_script_error "xyzzy" "iast" (Or.inl (by decide))⟩



/-- **C6**: the spec's concrete literal scenarios hold:
`convert "अ" devanagari iast = "a"`, `convert "धर्म" devanagari iast =
"dharma"`, `convert "saṃskṛtam" iast slp1 = "saMskftam"`,
`convert "dharmakṣetre" iast slp1 = "Darmakzetre"`, and
`convert "" S T = ""` for every supported pair. -/
theorem c6_concrete_scenarios :
    convertE "अ".toList "devanagari" "iast" = .ok "a".toList ∧
    convertE "धर्म".toList "devanagari" "iast" = .ok "dharma".toList ∧
    convertE "saṃskṛtam".toList "iast" "slp1" = .ok "saMskftam".toList ∧
    convertE "dharmakṣetre".toList "iast" "slp1" = .ok "Darmakzetre".toList ∧
    ∀ S ∈ registry, ∀ T ∈ registry, convertE [] S.id T.id = .ok [] := by
  refine ⟨by decide, by decide, by decide, by decide, ?_⟩
  decide

/-- Witness for C6's bounded quantification over the registry. -/
theorem c6_concrete_scenarios_witness :
    devanagari ∈ registry ∧ iast ∈ registry ∧
      convertE [] devanagari.id iast.id = .ok [] :=
  ⟨by decide, by decide,
    c6_concrete_scenarios.2.2.2.2 devanagari (by decide) iast (by decide)⟩



/-! ### The wrapper claims -/

/-- **C9**: after successful construction, `Transliterator.transliterate`
never raises: a raising/timing-out subprocess or a nonzero return code
yields the input text unchanged, and a successful invocation yields the
CLI's stdout with leading and trailing whitespace stripped. -/
theorem c9_wrapper_never_raises (text : String) (cli : Wrapper.CliOutcome) :
    (cli = .raised → (Wrapper.transliterate text cli).1 = text) ∧
    (∀ rc out, cli = .completed rc out → rc ≠ 0 →
      (Wrapper.transliterate text cli).1 = text) ∧
    (∀ out, cli = .completed 0 out →
      (Wrapper.transliterate text cli).2 = true →
      (Wrapper.transliterate text cli).1 = Wrapper.pyStrip out) := by
  refine ⟨?_, ?_, ?_⟩
  · rintro rfl
    by_cases hb : Wrapper.isBlank text <;> simp [Wrapper.transliterate, hb]
  · rintro rc out rfl hrc
    by_cases hb : Wrapper.isBlank text <;>
      simp [Wrapper.transliterate, hb, hrc]
  · rintro out rfl hinv
    by_cases hb : Wrapper.isBlank text
    · simp [Wrapper.transliterate, hb] at hinv
    · simp [Wrapper.transliterate, hb]

/-- Witness for C9: a successful CLI run on non-blank input returns the
stripped stdout. -/
theorem c9_wrapper_never_raises_witness :
    (Wrapper.transliterate "ab" (.completed 0 " x ")).1 = Wrapper.pyStrip " x " :=
  (c9_wrapper_never_raises "ab" (.completed 0 " x ")).2.2 " x " rfl (by decide)

/-- **C10**: input consisting only of whitespace (including the empty
string) is returned unchanged and the conversion engine is never
invoked. -/
theorem c10_wrapper_blank_short_circuit (text : String)
    (cli : Wrapper.CliOutcome) (h : Wrapper.isBlank text = true) :
    Wrapper.transliterate text cli = (text, false) := by
  simp [Wrapper.transliterate, h]

/-- Witness for C10 on a whitespace-only input, including the en quad
(U+2000) and the file separator (U+001C), both stripped by Python. -/
theorem c10_wrapper_blank_short_circuit_witness :
    Wrapper.isBlank " \t\u2000\x1c" = true ∧
      Wrapper.transliterate " \t\u2000\x1c" (.completed 0 "boom") =
        (" \t\u2000\x1c", false) :=
  ⟨by decide, c10_wrapper_blank_short_circuit _ _ (by decide)⟩



/-! ### Lemmas: identity conversion (C3) -/

theorem indicIdOk_find {table : List Entry} (h : indicIdOk table = true)
    {e : Entry} (he : e ∈ table) :
    findByPhCls table e.phoneme e.cls = some e := by
  rw [indicIdOk, Bool.and_eq_true, Bool.and_eq_true] at h
  have := List.all_eq_true.mp h.1.1 e he
  simpa using this

theorem indicIdOk_noInherentSign {table : List Entry}
    (h : indicIdOk table = true) {e : Entry} (he : e ∈ table)
    (hc : e.cls = .vowelSign) : e.phoneme ≠ indicInherent := by
  rw [indicIdOk, Bool.and_eq_true, Bool.and_eq_true] at h
  have := List.all_eq_true.mp h.1.2 e he
  simpa [hc] using this

theorem indicIdOk_virama {table : List Entry} (h : indicIdOk table = true)
    {e : Entry} (he : e ∈ table) (hc : e.cls = .virama) :
    e.grapheme = viramaG table := by
  rw [indicIdOk, Bool.and_eq_true, Bool.and_eq_true] at h
  have := List.all_eq_true.mp h.2 e he
  simpa [hc] using this

theorem romanIdOk_find {table : List Entry} (h : romanIdOk table = true)
    {e : Entry} (he : e ∈ table) : findByPh table e.phoneme = some e := by
  have := List.all_eq_true.mp h e he
  simpa using this

theorem bridgeFor_same (fam : Family) : bridgeFor fam fam = id := by
  cases fam <;> rfl

theorem applyBridge_id (items : List Item) : applyBridge id items = items := by
  rw [applyBridge]
  have hfun : (fun it : Item => { it with ph := it.ph.map id }) = fun it => it := by
    funext it
    cases it
    simp
  rw [hfun]
  simp

theorem renderRoman_identity {table : List Entry} (hwf : romanIdOk table = true) :
    ∀ toks : List Token, (∀ t ∈ toks, TokWF table t) →
      renderRoman table (toks.map itemOfToken) = concatToks toks := by
  intro toks
  induction toks with
  | nil => intro _; rfl
  | cons t ts ih =>
    intro hall
    have hwt := hall t (List.mem_cons_self _ _)
    have hih := ih (fun u hu => hall u (List.mem_cons_of_mem _ hu))
    rcases hwt with ⟨ho, hp⟩ | ⟨e, he, rfl⟩
    · simp only [List.map_cons, renderRoman, itemOfToken, hp, concatToks]
      rw [hih]
    · simp only [List.map_cons, renderRoman, itemOfToken, tokenOf, concatToks]
      rw [romanIdOk_find hwf he, hih]

theorem resolveIndic_cons (inh : String) (t : Token) (ts : List Token) :
    ∃ tl, resolveIndic inh (t :: ts) = itemOfToken t :: tl := by
  cases ts with
  | nil =>
    by_cases h : t.cls = .consonant
    · refine ⟨[⟨some inh, .vowel, []⟩], ?_⟩
      simp [resolveIndic, h]
    · refine ⟨[], ?_⟩
      simp [resolveIndic, h]
  | cons t2 rest2 =>
    by_cases h : t.cls = .consonant
    · by_cases h2 : t2.cls = .vowelSign
      · refine ⟨⟨t2.phoneme, .vowel, t2.text⟩ :: resolveIndic inh rest2, ?_⟩
        simp [resolveIndic, h, h2]
      · by_cases h3 : t2.cls = .virama
        · cases rest2 with
          | nil =>
            refine ⟨[], ?_⟩
            simp [resolveIndic, h, h2, h3]
          | cons t3 tail =>
            by_cases h4 : fuseNext t3.cls = true
            · refine ⟨resolveIndic inh (t3 :: tail), ?_⟩
              simp [resolveIndic, h, h2, h3, h4]
            · refine ⟨itemOfToken t2 :: resolveIndic inh (t3 :: tail), ?_⟩
              simp [resolveIndic, h, h2, h3, h4]
        · refine ⟨⟨some inh, .vowel, []⟩ :: resolveIndic inh (t2 :: rest2), ?_⟩
          simp [resolveIndic, h, h2, h3]
    · refine ⟨resolveIndic inh (t2 :: rest2), ?_⟩
      simp [resolveIndic, h]

theorem renderIndic_resolveIndic_identity {table : List Entry}
    (hwf : indicIdOk table = true) :
    ∀ toks : List Token, (∀ t ∈ toks, TokWF table t) →
      renderIndic table (resolveIndic indicInherent toks) = concatToks toks := by
  intro toks
  induction toks using resolveIndic.induct indicInherent with
  | case1 => intro _; rfl
  | case2 t h =>
    intro hall
    rcases hall t (List.mem_cons_self _ _) with ⟨ho, _⟩ | ⟨e, he, rfl⟩
    · rw [h] at ho; cases ho
    have hcls : e.cls = .consonant := by simpa [tokenOf] using h
    have hfind := indicIdOk_find hwf he
    rw [hcls] at hfind
    simp only [resolveIndic, tokenOf, itemOfToken, hcls, if_true]
    rw [renderIndic_cons_inh table _ _ _ rfl rfl hfind rfl rfl,
      renderIndic_nil]
    simp [concatToks, tokenOf]
  | case3 t h =>
    intro hall
    simp only [resolveIndic, h, if_false]
    rcases hall t (List.mem_cons_self _ _) with ⟨ho, hp⟩ | ⟨e, he, rfl⟩
    · rw [renderIndic_other table _ _ (by simp [itemOfToken, hp]),
        renderIndic_nil]
      simp [itemOfToken, concatToks]
    · have hfind := indicIdOk_find hwf he
      rw [renderIndic_noncons_found table _ _ rfl
        (by simpa [itemOfToken, tokenOf] using h) (by simpa [itemOfToken, tokenOf] using hfind),
        renderIndic_nil]
      simp [itemOfToken, tokenOf, concatToks]
  | case4 t t2 rest2 h h2 ih =>
    intro hall
    have hih := ih (fun u hu => hall u (by simp [List.mem_cons] at hu ⊢; tauto))
    rcases hall t (List.mem_cons_self _ _) with ⟨ho, _⟩ | ⟨e, he, rfl⟩
    · rw [h] at ho; cases ho
    rcases hall t2 (by simp) with ⟨ho2, _⟩ | ⟨e2, he2, rfl⟩
    · rw [h2] at ho2; cases ho2
    have hcls : e.cls = .consonant := by simpa [tokenOf] using h
    have hcls2 : e2.cls = .vowelSign := by simpa [tokenOf] using h2
    have hph2 : ¬e2.phoneme = indicInherent :=
      indicIdOk_noInherentSign hwf he2 hcls2
    have hfind := indicIdOk_find hwf he
    rw [hcls] at hfind
    have hm := indicIdOk_find hwf he2
    rw [hcls2] at hm
    simp only [resolveIndic, tokenOf, itemOfToken, hcls, hcls2, if_true]
    rw [renderIndic_cons_vowel table _ _ _ rfl rfl hfind rfl rfl hph2 hm,
      hih]
    simp [concatToks, tokenOf, List.append_assoc]
  | case5 t t2 h h2 h3 =>
    intro hall
    rcases hall t (List.mem_cons_self _ _) with ⟨ho, _⟩ | ⟨e, he, rfl⟩
    · rw [h] at ho; cases ho
    rcases hall t2 (by simp) with ⟨ho2, _⟩ | ⟨e2, he2, rfl⟩
    · rw [h3] at ho2; cases ho2
    have hcls : e.cls = .consonant := by simpa [tokenOf] using h
    have hcls2 : e2.cls = .virama := by simpa [tokenOf] using h3
    have hfind := indicIdOk_find hwf he
    rw [hcls] at hfind
    simp only [resolveIndic, tokenOf, itemOfToken, hcls, hcls2, if_true,
      reduceCtorEq, if_false]
    rw [renderIndic_cons_end table _ rfl rfl hfind]
    simp [concatToks, tokenOf, indicIdOk_virama hwf he2 hcls2]
  | case6 t t2 h h2 h3 t3 tail h4 ih =>
    intro hall
    have hih := ih (fun u hu => hall u (by simp [List.mem_cons] at hu ⊢; tauto))
    rcases hall t (List.mem_cons_self _ _) with ⟨ho, _⟩ | ⟨e, he, rfl⟩
    · rw [h] at ho; cases ho
    rcases hall t2 (by simp) with ⟨ho2, _⟩ | ⟨e2, he2, rfl⟩
    · rw [h3] at ho2; cases ho2
    have hcls : e.cls = .consonant := by simpa [tokenOf] using h
    have hcls2 : e2.cls = .virama := by simpa [tokenOf] using h3
    have hfind := indicIdOk_find hwf he
    rw [hcls] at hfind
    obtain ⟨tl, htl⟩ := resolveIndic_cons indicInherent t3 tail
    have hnv : ¬(itemOfToken t3).cls = GClass.vowel := by
      cases hcc : t3.cls <;> simp [fuseNext, hcc, itemOfToken] at h4 ⊢
    have hnvir : ¬(itemOfToken t3).cls = GClass.virama := by
      cases hcc : t3.cls <;> simp [fuseNext, hcc, itemOfToken] at h4 ⊢
    simp only [resolveIndic, tokenOf, itemOfToken, hcls, hcls2, h4, if_true,
      reduceCtorEq, if_false]
    rw [htl,
      renderIndic_cons_other table _ _ _ rfl rfl hfind hnv hnvir,
      ← htl, hih]
    simp [concatToks, tokenOf, indicIdOk_virama hwf he2 hcls2,
      List.append_assoc]
  | case7 t t2 h h2 h3 t3 tail h4 ih =>
    intro hall
    have hih := ih (fun u hu => hall u (by simp [List.mem_cons] at hu ⊢; tauto))
    rcases hall t (List.mem_cons_self _ _) with ⟨ho, _⟩ | ⟨e, he, rfl⟩
    · rw [h] at ho; cases ho
    rcases hall t2 (by simp) with ⟨ho2, _⟩ | ⟨e2, he2, rfl⟩
    · rw [h3] at ho2; cases ho2
    have hcls : e.cls = .consonant := by simpa [tokenOf] using h
    have hcls2 : e2.cls = .virama := by simpa [tokenOf] using h3
    have hfind := indicIdOk_find hwf he
    rw [hcls] at hfind
    simp only [resolveIndic, tokenOf, itemOfToken, hcls, hcls2, h4, if_true,
      reduceCtorEq, if_false, Bool.not_eq_true]
    rw [renderIndic_cons_virama table _ _ _ rfl rfl hfind rfl, hih]
    simp [concatToks, tokenOf, indicIdOk_virama hwf he2 hcls2,
      List.append_assoc]
  | case8 t t2 rest2 h h2 h3 ih =>
    intro hall
    have hih := ih (fun u hu => hall u (by simp [List.mem_cons] at hu ⊢; tauto))
    rcases hall t (List.mem_cons_self _ _) with ⟨ho, _⟩ | ⟨e, he, rfl⟩
    · rw [h] at ho; cases ho
    have hcls : e.cls = .consonant := by simpa [tokenOf] using h
    have hfind := indicIdOk_find hwf he
    rw [hcls] at hfind
    simp only [resolveIndic, tokenOf, itemOfToken, hcls, h2, h3, if_true,
      reduceCtorEq, if_false]
    rw [renderIndic_cons_inh table _ _ _ rfl rfl hfind rfl rfl, hih]
    simp [concatToks, tokenOf]
  | case9 t t2 rest2 h ih =>
    intro hall
    have hih := ih (fun u hu => hall u (by simp [List.mem_cons] at hu ⊢; tauto))
    simp only [resolveIndic, h, if_false]
    rcases hall t (List.mem_cons_self _ _) with ⟨ho, hp⟩ | ⟨e, he, rfl⟩
    · rw [renderIndic_other table _ _ (by simp [itemOfToken, hp]), hih]
      simp [itemOfToken, concatToks]
    · have hfind := indicIdOk_find hwf he
      rw [renderIndic_noncons_found table _ _ rfl
        (by simpa [itemOfToken, tokenOf] using h)
        (by simpa [itemOfToken, tokenOf] using hfind), hih]
      simp [itemOfToken, tokenOf, concatToks]

theorem convertCore_self_roman {S : ScriptSchema} (hfam : S.family = .roman)
    (hwf : romanIdOk S.table = true) (text : List Char) :
    convertCore S S text = text := by
  rw [convertCore, hfam, bridgeFor_same, applyBridge_id]
  simp only [resolveTokens, render]
  rw [renderRoman_identity hwf _ (fun t ht => by
    rcases tokenize_wf S.table _ _ t ht with ⟨e, he, rfl⟩ | ⟨h1, h2, c, h3⟩
    · exact Or.inr ⟨e, he, rfl⟩
    · exact Or.inl ⟨h1, h2⟩)]
  exact concatToks_tokenize S.table text

theorem convertCore_self_indic {S : ScriptSchema} (hfam : S.family = .indic)
    (hwf : indicIdOk S.table = true) (text : List Char) :
    convertCore S S text = text := by
  rw [convertCore, hfam, bridgeFor_same, applyBridge_id]
  simp only [resolveTokens, render]
  rw [renderIndic_resolveIndic_identity hwf _ (fun t ht => by
    rcases tokenize_wf S.table _ _ t ht with ⟨e, he, rfl⟩ | ⟨h1, h2, c, h3⟩
    · exact Or.inr ⟨e, he, rfl⟩
    · exact Or.inl ⟨h1, h2⟩)]
  exact concatToks_tokenize S.table text

/-- **C3**: for every registered script S and every text tokenizable
under S's schema, self-conversion is the identity. -/
theorem c3_identity (S : ScriptSchema) (hreg : S ∈ registry)
    (text : List Char) (htok : Tokenizable S text) :
    convertE text S.id S.id = .ok text := by
  fin_cases hreg
  · rw [show convertE text devanagari.id devanagari.id
      = .ok (convertCore devanagari devanagari text) from rfl]
    rw [convertCore_self_indic rfl (by decide)]
  · rw [show convertE text iast.id iast.id
      = .ok (convertCore iast iast text) from rfl]
    rw [convertCore_self_roman rfl (by decide)]
  · rw [show convertE text slp1.id slp1.id
      = .ok (convertCore slp1 slp1 text) from rfl]
    rw [convertCore_self_roman rfl (by decide)]

/-- Witness for C3: identity on a concrete tokenizable IAST text. -/
theorem c3_identity_witness :
    iast ∈ registry ∧ Tokenizable iast "dharma".toList ∧
      convertE "dharma".toList iast.id iast.id = .ok "dharma".toList :=
  ⟨by decide, by decide, c3_identity iast (by decide) _ (by decide)⟩



/-! ### Lemmas: passthrough of unmapped codepoints (C4) -/

theorem isPfx_junk_eq {p w : List Char} {c : Char} (hc : c ∉ p)
    (T2 : List Char) : isPfx p (w ++ c :: T2) = isPfx p w := by
  cases hw : isPfx p w with
  | true =>
    obtain ⟨hlen, htake⟩ := isPfx_iff.mp hw
    apply isPfx_iff.mpr
    constructor
    · simp only [List.length_append, List.length_cons]
      omega
    · rw [List.take_append_of_le_length hlen, htake]
  | false =>
    by_contra hne
    cases hx : isPfx p (w ++ c :: T2) with
    | false => rw [hx] at hne; exact hne rfl
    | true =>
      obtain ⟨hlen, htake⟩ := isPfx_iff.mp hx
      simp only [List.length_append, List.length_cons] at hlen
      rcases Nat.lt_or_ge w.length p.length with hgt | hle
      · have h1 : (w ++ c :: T2).take p.length =
            w ++ (c :: T2).take (p.length - w.length) := by
          rw [List.take_append_eq_append_take,
            List.take_of_length_le (by omega)]
        obtain ⟨k, hk⟩ : ∃ k, p.length - w.length = k + 1 :=
          ⟨p.length - w.length - 1, by omega⟩
        rw [h1, hk, List.take_succ_cons] at htake
        exact hc (by rw [← htake]; simp)
      · rw [List.take_append_of_le_length hle] at htake
        rw [isPfx_iff.mpr ⟨hle, htake⟩] at hw
        cases hw

theorem longestEntry_junk {table : List Entry} {c : Char}
    (hc : ∀ e ∈ table, c ∉ e.grapheme) (text T2 : List Char) :
    longestEntry table (text ++ c :: T2) = longestEntry table text := by
  induction table with
  | nil => rfl
  | cons e rest ih =>
    have ih' := ih (fun f hf => hc f (List.mem_cons_of_mem _ hf))
    simp only [longestEntry, ih',
      isPfx_junk_eq (hc e (List.mem_cons_self _ _)) T2]

theorem longestEntry_junk_head {table : List Entry} {c : Char}
    (hc : ∀ e ∈ table, c ∉ e.grapheme) (T2 : List Char) :
    longestEntry table (c :: T2) = none := by
  cases hx : longestEntry table (c :: T2) with
  | none => rfl
  | some e =>
    exfalso
    have hs := longestEntry_some hx
    obtain ⟨hlen, htake⟩ := isPfx_iff.mp hs.2.2
    obtain ⟨k, hk⟩ : ∃ k, e.grapheme.length = k + 1 :=
      ⟨e.grapheme.length - 1, by have := hs.2.1; omega⟩
    rw [hk, List.take_succ_cons] at htake
    exact hc e hs.1 (by rw [← htake]; simp)

theorem tokenize_junk_go {table : List Entry} {c : Char}
    (hc : ∀ e ∈ table, c ∉ e.grapheme) (T2 : List Char) :
    ∀ (n : Nat) (text : List Char), text.length ≤ n →
      tokenize table (text ++ c :: T2) =
        tokenize table text ++ ⟨.other, [c], none⟩ :: tokenize table T2 := by
  intro n
  induction n with
  | zero =>
    intro text hlen
    have htx : text = [] := by
      cases text with
      | nil => rfl
      | cons x xs => simp at hlen
    subst htx
    rw [List.nil_append, tokenize_cons_of_none (longestEntry_junk_head hc T2)]
    rfl
  | succ n ih =>
    intro text hlen
    cases text with
    | nil =>
      rw [List.nil_append, tokenize_cons_of_none (longestEntry_junk_head hc T2)]
      rfl
    | cons x xs =>
      have hle' := longestEntry_junk hc (x :: xs) T2
      cases hle : longestEntry table (x :: xs) with
      | some e =>
        rw [hle] at hle'
        have hs := longestEntry_some hle
        have hplen := (isPfx_iff.mp hs.2.2).1
        rw [tokenize_cons_of_some hle' (by simp),
          tokenize_cons_of_some hle (by simp)]
        rw [List.drop_append_of_le_length hplen]
        rw [ih _ (by
          simp only [List.length_drop]
          simp only [List.length_cons] at hlen ⊢
          omega)]
        rfl
      | none =>
        rw [hle] at hle'
        rw [show (x :: xs) ++ c :: T2 = x :: (xs ++ c :: T2) from rfl] at hle' ⊢
        rw [tokenize_cons_of_none hle', tokenize_cons_of_none hle]
        rw [ih xs (by simp only [List.length_cons] at hlen; omega)]
        rfl

theorem tokenize_junk {table : List Entry} {c : Char}
    (hc : ∀ e ∈ table, c ∉ e.grapheme) (text T2 : List Char) :
    tokenize table (text ++ c :: T2) =
      tokenize table text ++ ⟨.other, [c], none⟩ :: tokenize table T2 :=
  tokenize_junk_go hc T2 text.length text (le_refl _)

theorem resolveIndic_other_head (inh : String) (pt : Token)
    (hp : pt.cls = .other) (L : List Token) :
    resolveIndic inh (pt :: L) = itemOfToken pt :: resolveIndic inh L := by
  cases L with
  | nil => simp [resolveIndic, hp]
  | cons t2 rest => simp [resolveIndic, hp]

theorem resolveIndic_append_pt (inh : String) (pt : Token)
    (hp : pt.cls = .other) (toks2 : List Token) :
    ∀ toks : List Token, resolveIndic inh (toks ++ pt :: toks2) =
      resolveIndic inh toks ++ itemOfToken pt :: resolveIndic inh toks2 := by
  have hpt := resolveIndic_other_head inh pt hp toks2
  intro toks
  induction toks using resolveIndic.induct inh with
  | case1 =>
    simp [resolveIndic, hpt]
  | case2 t h =>
    simp [resolveIndic, h, hp, hpt]
  | case3 t h =>
    simp [resolveIndic, h, hpt]
  | case4 t t2 rest2 h h2 ih =>
    simp [resolveIndic, h, h2, ih]
  | case5 t t2 h h2 h3 =>
    simp [resolveIndic, h, h2, h3, hp, fuseNext, hpt]
  | case6 t t2 h h2 h3 t3 tail h4 ih =>
    simp only [List.cons_append, resolveIndic, h, h2, h3, h4, if_true,
      if_false] at ih ⊢
    simp [h4, ih]
  | case7 t t2 h h2 h3 t3 tail h4 ih =>
    simp only [List.cons_append, resolveIndic, h, h2, h3, h4, if_true,
      if_false] at ih ⊢
    simp [h4, ih]
  | case8 t t2 rest2 h h2 h3 ih =>
    simp only [List.cons_append] at ih ⊢
    simp [resolveIndic, h, h2, h3, ih]
  | case9 t t2 rest2 h ih =>
    simp only [List.cons_append] at ih ⊢
    simp [resolveIndic, h, ih]

theorem renderRoman_append (table : List Entry) (xs ys : List Item) :
    renderRoman table (xs ++ ys) =
      renderRoman table xs ++ renderRoman table ys := by
  induction xs with
  | nil => rfl
  | cons it rest ih =>
    simp only [List.cons_append, renderRoman, List.append_eq, ih,
      List.append_assoc]

theorem consItemTail_cons (x : Item) {xs : List Item} (h : xs ≠ []) :
    consItemTail (x :: xs) = consItemTail xs := by
  cases xs with
  | nil => exact absurd rfl h
  | cons y l => rw [consItemTail, consItemTail, List.getLast?_cons_cons]

theorem noAttach_tail {V : Bool} {it : Item} {rest : List Item}
    (h : ¬(consItemTail (it :: rest) = true ∧ V = true)) :
    ¬(consItemTail rest = true ∧ V = true) := by
  rintro ⟨h1, h2⟩
  refine h ⟨?_, h2⟩
  have hne : rest ≠ [] := by
    intro hr
    rw [hr] at h1
    simp [consItemTail] at h1
  rw [consItemTail_cons it hne]
  exact h1

theorem renderIndic_append (table : List Entry) (ys xs : List Item)
    (hsafe : ¬(consItemTail xs = true ∧ vowVirHead ys = true)) :
    renderIndic table (xs ++ ys) =
      renderIndic table xs ++ renderIndic table ys := by
  have main : ∀ (n : Nat) (xs : List Item), xs.length ≤ n →
      ¬(consItemTail xs = true ∧ vowVirHead ys = true) →
      renderIndic table (xs ++ ys) =
        renderIndic table xs ++ renderIndic table ys := by
    intro n
    induction n with
    | zero =>
      intro xs hlen _
      have : xs = [] := by
        cases xs with
        | nil => rfl
        | cons x t => simp at hlen
      subst this
      simp [renderIndic_nil]
    | succ n ih =>
      intro xs hlen hsx
      match xs, hsx with
      | [], _ => simp [renderIndic_nil]
      | it :: rest, hsx =>
        have hlen' : rest.length ≤ n := by
          simp only [List.length_cons] at hlen
          omega
        cases hph : it.ph with
        | none =>
          rw [List.cons_append, renderIndic_other table _ _ hph,
            renderIndic_other table _ _ hph, ih rest hlen' (noAttach_tail hsx),
            List.append_assoc]
        | some p =>
          by_cases hcons : it.cls = .consonant
          · cases hf : findByPhCls table p .consonant with
            | none =>
              rw [List.cons_append, renderIndic_cons_miss table _ _ hph hcons hf,
                renderIndic_cons_miss table _ _ hph hcons hf,
                ih rest hlen' (noAttach_tail hsx), List.append_assoc]
            | some e =>
              match rest, hsx with
              | [], hsx =>
                cases hys0 : ys with
                | nil => simp [renderIndic_nil]
                | cons y ys2 =>
                  have hvv : vowVirHead ys = false := by
                    cases hvvb : vowVirHead ys with
                    | false => rfl
                    | true =>
                      exact absurd ⟨by simp [consItemTail, hcons], hvvb⟩ hsx
                  rw [hys0] at hvv
                  simp only [vowVirHead, List.head?, Bool.or_eq_false_iff,
                    beq_eq_false_iff_ne, ne_eq] at hvv
                  rw [List.singleton_append,
                    renderIndic_cons_other table _ _ _ hph hcons hf hvv.1 hvv.2,
                    renderIndic_cons_end table _ hph hcons hf,
                    List.append_assoc]
              | it2 :: rest2, hsx =>
                by_cases h2 : it2.cls = .vowel
                · cases hv : it2.ph with
                  | some v =>
                    by_cases hinh : v = indicInherent
                    · subst hinh
                      rw [List.cons_append, List.cons_append,
                        renderIndic_cons_inh table _ _ _ hph hcons hf h2 hv,
                        renderIndic_cons_inh table _ _ _ hph hcons hf h2 hv,
                        ih rest2 (by simp only [List.length_cons] at hlen; omega)
                          (noAttach_tail (noAttach_tail hsx)),
                        List.append_assoc]
                    · cases hm : findByPhCls table v .vowelSign with
                      | some m =>
                        rw [List.cons_append, List.cons_append,
                          renderIndic_cons_vowel table _ _ _ hph hcons hf h2 hv hinh hm,
                          renderIndic_cons_vowel table _ _ _ hph hcons hf h2 hv hinh hm,
                          ih rest2 (by simp only [List.length_cons] at hlen; omega)
                            (noAttach_tail (noAttach_tail hsx))]
                        simp [List.append_assoc]
                      | none =>
                        rw [List.cons_append, List.cons_append,
                          renderIndic_cons_vowel_miss table _ _ _ hph hcons hf h2 hv hinh hm,
                          renderIndic_cons_vowel_miss table _ _ _ hph hcons hf h2 hv hinh hm,
                          ← List.cons_append, ih (it2 :: rest2) hlen' (noAttach_tail hsx)]
                        simp [List.append_assoc]
                  | none =>
                    rw [List.cons_append, List.cons_append,
                      renderIndic_cons_vowel_noph table _ _ _ hph hcons hf h2 hv,
                      renderIndic_cons_vowel_noph table _ _ _ hph hcons hf h2 hv,
                      ← List.cons_append, ih (it2 :: rest2) hlen' (noAttach_tail hsx)]
                    simp [List.append_assoc]
                · by_cases h3 : it2.cls = .virama
                  · rw [List.cons_append, List.cons_append,
                      renderIndic_cons_virama table _ _ _ hph hcons hf h3,
                      renderIndic_cons_virama table _ _ _ hph hcons hf h3,
                      ih rest2 (by simp only [List.length_cons] at hlen; omega)
                        (noAttach_tail (noAttach_tail hsx))]
                    simp [List.append_assoc]
                  · rw [List.cons_append, List.cons_append,
                      renderIndic_cons_other table _ _ _ hph hcons hf h2 h3,
                      renderIndic_cons_other table _ _ _ hph hcons hf h2 h3,
                      ← List.cons_append, ih (it2 :: rest2) hlen' (noAttach_tail hsx)]
                    simp [List.append_assoc]
          · cases hf : findByPhCls table p it.cls with
            | some e =>
              rw [List.cons_append,
                renderIndic_noncons_found table _ _ hph hcons hf,
                renderIndic_noncons_found table _ _ hph hcons hf,
                ih rest hlen' (noAttach_tail hsx), List.append_assoc]
            | none =>
              rw [List.cons_append,
                renderIndic_noncons_miss table _ _ hph hcons hf,
                renderIndic_noncons_miss table _ _ hph hcons hf,
                ih rest hlen' (noAttach_tail hsx), List.append_assoc]
  exact main xs.length xs (le_refl _) hsafe



theorem registry_junk_free :
    ∀ S ∈ registry, ∀ c ∈ junkChars, ∀ e ∈ S.table, c ∉ e.grapheme := by
  decide

theorem convertCore_junk_mid (src tgt : ScriptSchema) (T1 T2 : List Char)
    (c : Char) (hc : ∀ e ∈ src.table, c ∉ e.grapheme) :
    convertCore src tgt (T1 ++ c :: T2) =
      convertCore src tgt T1 ++ c :: convertCore src tgt T2 := by
  rw [convertCore, convertCore, convertCore, tokenize_junk hc]
  have hres : resolveTokens src.family indicInherent
      (tokenize src.table T1 ++
        (⟨.other, [c], none⟩ : Token) :: tokenize src.table T2)
      = resolveTokens src.family indicInherent (tokenize src.table T1)
        ++ ⟨none, .other, [c]⟩ ::
          resolveTokens src.family indicInherent (tokenize src.table T2) := by
    cases src.family with
    | indic => exact resolveIndic_append_pt _ _ rfl _ _
    | roman => simp [resolveTokens, itemOfToken]
  rw [hres]
  have hbr : applyBridge (bridgeFor src.family tgt.family)
      (resolveTokens src.family indicInherent (tokenize src.table T1)
        ++ (⟨none, .other, [c]⟩ : Item) ::
          resolveTokens src.family indicInherent (tokenize src.table T2))
      = applyBridge (bridgeFor src.family tgt.family)
          (resolveTokens src.family indicInherent (tokenize src.table T1))
        ++ (⟨none, .other, [c]⟩ : Item) ::
          applyBridge (bridgeFor src.family tgt.family)
            (resolveTokens src.family indicInherent
              (tokenize src.table T2)) := by
    simp [applyBridge]
  rw [hbr]
  cases htf : tgt.family with
  | roman =>
    simp only [render, renderRoman_append]
    simp [renderRoman]
  | indic =>
    simp only [render]
    rw [renderIndic_append tgt.table
      ((⟨none, .other, [c]⟩ : Item) :: applyBridge
        (bridgeFor src.family .indic)
        (resolveTokens src.family indicInherent (tokenize src.table T2)))
      (applyBridge (bridgeFor src.family .indic)
        (resolveTokens src.family indicInherent (tokenize src.table T1)))
      (by
        rintro ⟨h1, h2⟩
        simp [vowVirHead] at h2)]
    rw [renderIndic_other tgt.table _ _ rfl]
    simp

/-- **C4**: once both script names resolve, `convert` is total over
arbitrary input (no per-character error), and a codepoint with no mapping
in the source schema — ASCII punctuation, digits, whitespace, and ASCII
letters wherever the source leaves them unmapped — inserted at any token
boundary is copied verbatim and positionally consistent into the output,
for every resolvable (from, to) pair. -/
theorem c4_totality_passthrough (a b : String) (src tgt : ScriptSchema)
    (hsrc : resolveScript a = some src) (htgt : resolveScript b = some tgt)
    (text T1 T2 : List Char) (c : Char)
    (hc : ∀ e ∈ src.table, c ∉ e.grapheme) :
    (∃ output, convertE text a b = .ok output) ∧
      ∃ o1 o2, convertE T1 a b = .ok o1 ∧ convertE T2 a b = .ok o2 ∧
        convertE (T1 ++ c :: T2) a b = .ok (o1 ++ c :: o2) := by
  refine ⟨?_, ?_⟩
  · rw [convertE, hsrc, htgt]
    exact ⟨_, rfl⟩
  · refine ⟨convertCore src tgt T1, convertCore src tgt T2, ?_, ?_, ?_⟩
    · simp only [convertE, hsrc, htgt]
    · simp only [convertE, hsrc, htgt]
    · simp only [convertE, hsrc, htgt]
      rw [convertCore_junk_mid src tgt T1 T2 c hc]

/-- Witness for C4: the ASCII letter `k` is unmapped in Devanagari and
passes through mid-text, devanagari → iast. -/
theorem c4_totality_passthrough_witness :
    (∃ output, convertE "धर्म".toList "devanagari" "iast" = .ok output) ∧
      ∃ o1 o2, convertE "धर्म".toList "devanagari" "iast" = .ok o1 ∧
        convertE "म".toList "devanagari" "iast" = .ok o2 ∧
        convertE ("धर्म".toList ++ 'k' :: "म".toList) "devanagari" "iast" =
          .ok (o1 ++ 'k' :: o2) :=
  c4_totality_passthrough "devanagari" "iast" devanagari iast
    (by decide) (by decide) "धर्म".toList "धर्म".toList "म".toList 'k'
    (by decide)



/-! ### Lemmas: concatenation locality (C8) -/

theorem consTail_cons2 (t : Token) {ts : List Token} (h : ts ≠ []) :
    consTail (t :: ts) = consTail ts := by
  cases ts with
  | nil => exact absurd rfl h
  | cons y l =>
    rw [consTail, consTail, List.getLast?_cons_cons]

theorem consVirTail_small {ts : List Token} (h : ts.length ≤ 1) :
    consVirTail ts = false := by
  cases ts with
  | nil => rfl
  | cons x l =>
    cases l with
    | nil => rfl
    | cons y m => simp at h

theorem consVirTail_cons2 (t : Token) {ts : List Token} (h : 2 ≤ ts.length) :
    consVirTail (t :: ts) = consVirTail ts := by
  rcases hr : ts.reverse with _ | ⟨x, rest⟩
  · have hl := congrArg List.length hr
    rw [List.length_reverse] at hl
    simp only [List.length_nil] at hl
    omega
  rcases rest with _ | ⟨y, l⟩
  · have hl := congrArg List.length hr
    rw [List.length_reverse] at hl
    simp only [List.length_cons, List.length_nil] at hl
    omega
  rw [consVirTail, consVirTail, List.reverse_cons, hr]
  simp only [List.cons_append]

theorem resolveIndic_append_safe (inh : String) (ts us : List Token)
    (h1 : ¬(consTail ts = true ∧ signVirHead us = true))
    (h2 : ¬(consVirTail ts = true ∧ nonFuseHead us = true)) :
    resolveIndic inh (ts ++ us) = resolveIndic inh ts ++ resolveIndic inh us := by
  induction ts using resolveIndic.induct inh with
  | case1 => simp [resolveIndic]
  | case2 t h =>
    cases us with
    | nil => simp [resolveIndic]
    | cons u us2 =>
      have hns : ¬signVirHead (u :: us2) = true := by
        intro hc
        exact h1 ⟨by simp [consTail, h], hc⟩
      simp only [signVirHead, List.head?, Bool.or_eq_true, beq_iff_eq,
        not_or] at hns
      simp [resolveIndic, h, hns.1, hns.2]
  | case3 t h =>
    cases us with
    | nil => simp [resolveIndic]
    | cons u us2 => simp [resolveIndic, h]
  | case4 t t2 rest2 h h2' ih =>
    have ih' := ih ?_ ?_
    · simp only [List.cons_append, resolveIndic, h, h2', if_true] at ih' ⊢
      simp [ih']
    · intro ⟨hct, hsv⟩
      cases hr : rest2 with
      | nil => rw [hr] at hct; simp [consTail] at hct
      | cons r rs =>
        refine h1 ⟨?_, hsv⟩
        rw [consTail_cons2 t (by simp), consTail_cons2 t2 (by rw [hr]; simp)]
        exact hct
    · intro ⟨hcv, hnf⟩
      rcases Nat.lt_or_ge rest2.length 2 with hlen | hlen
      · rw [consVirTail_small (by omega)] at hcv
        cases hcv
      · refine h2 ⟨?_, hnf⟩
        rw [consVirTail_cons2 t (by simp only [List.length_cons]; omega),
          consVirTail_cons2 t2 (by omega), hcv]
  | case5 t t2 h h2' h3 =>
    cases us with
    | nil => simp [resolveIndic]
    | cons u us2 =>
      have hfu : fuseNext u.cls = true := by
        by_contra hc
        exact h2 ⟨by simp [consVirTail, h, h3],
          by simp [nonFuseHead, List.head?, hc]⟩
      simp [resolveIndic, h, h2', h3, hfu]
  | case6 t t2 h h2' h3 t3 tail h4 ih =>
    have ih' := ih ?_ ?_
    · simp only [List.cons_append, resolveIndic, h, h2', h3, h4, if_true,
        if_false] at ih' ⊢
      simp [h4, ih']
    · intro ⟨hct, hsv⟩
      refine h1 ⟨?_, hsv⟩
      rw [consTail_cons2 t (by simp), consTail_cons2 t2 (by simp), hct]
    · intro ⟨hcv, hnf⟩
      rcases Nat.lt_or_ge (t3 :: tail).length 2 with hlen | hlen
      · rw [consVirTail_small (by omega)] at hcv
        cases hcv
      · refine h2 ⟨?_, hnf⟩
        rw [consVirTail_cons2 t (by simp only [List.length_cons]; omega),
          consVirTail_cons2 t2 (by omega), hcv]
  | case7 t t2 h h2' h3 t3 tail h4 ih =>
    have ih' := ih ?_ ?_
    · simp only [List.cons_append, resolveIndic, h, h2', h3, h4, if_true,
        if_false] at ih' ⊢
      simp [h4, ih']
    · intro ⟨hct, hsv⟩
      refine h1 ⟨?_, hsv⟩
      rw [consTail_cons2 t (by simp), consTail_cons2 t2 (by simp), hct]
    · intro ⟨hcv, hnf⟩
      rcases Nat.lt_or_ge (t3 :: tail).length 2 with hlen | hlen
      · rw [consVirTail_small (by omega)] at hcv
        cases hcv
      · refine h2 ⟨?_, hnf⟩
        rw [consVirTail_cons2 t (by simp only [List.length_cons]; omega),
          consVirTail_cons2 t2 (by omega), hcv]
  | case8 t t2 rest2 h h2' h3 ih =>
    have ih' := ih ?_ ?_
    · simp only [List.cons_append, resolveIndic, h, h2', h3, if_true,
        if_false] at ih' ⊢
      simp [ih']
    · intro ⟨hct, hsv⟩
      refine h1 ⟨?_, hsv⟩
      rw [consTail_cons2 t (by simp), hct]
    · intro ⟨hcv, hnf⟩
      rcases Nat.lt_or_ge (t2 :: rest2).length 2 with hlen | hlen
      · rw [consVirTail_small (by omega)] at hcv
        cases hcv
      · refine h2 ⟨?_, hnf⟩
        rw [consVirTail_cons2 t (by omega), hcv]
  | case9 t t2 rest2 h ih =>
    have ih' := ih ?_ ?_
    · simp only [List.cons_append, resolveIndic, h, if_false] at ih' ⊢
      simp [ih']
    · intro ⟨hct, hsv⟩
      refine h1 ⟨?_, hsv⟩
      rw [consTail_cons2 t (by simp), hct]
    · intro ⟨hcv, hnf⟩
      rcases Nat.lt_or_ge (t2 :: rest2).length 2 with hlen | hlen
      · rw [consVirTail_small (by omega)] at hcv
        cases hcv
      · refine h2 ⟨?_, hnf⟩
        rw [consVirTail_cons2 t (by omega), hcv]

theorem convertCore_append_safe (src tgt : ScriptSchema) (T1 T2 : List Char)
    (hsafe : SafeSplit src tgt T1 T2) :
    convertCore src tgt (T1 ++ T2) =
      convertCore src tgt T1 ++ convertCore src tgt T2 := by
  obtain ⟨htok, hind, htgtind⟩ := hsafe
  rw [convertCore, convertCore, convertCore, htok]
  have hres : resolveTokens src.family indicInherent
      (tokenize src.table T1 ++ tokenize src.table T2) =
      resolveTokens src.family indicInherent (tokenize src.table T1) ++
        resolveTokens src.family indicInherent (tokenize src.table T2) := by
    cases hfam : src.family with
    | roman => simp [resolveTokens]
    | indic =>
      obtain ⟨h1, h2⟩ := hind hfam
      simp only [resolveTokens]
      exact resolveIndic_append_safe indicInherent _ _ h1 h2
  rw [hres]
  have hbr : applyBridge (bridgeFor src.family tgt.family)
      (resolveTokens src.family indicInherent (tokenize src.table T1) ++
        resolveTokens src.family indicInherent (tokenize src.table T2)) =
      applyBridge (bridgeFor src.family tgt.family)
        (resolveTokens src.family indicInherent (tokenize src.table T1)) ++
      applyBridge (bridgeFor src.family tgt.family)
        (resolveTokens src.family indicInherent (tokenize src.table T2)) := by
    simp [applyBridge]
  rw [hbr]
  cases htf : tgt.family with
  | roman => simp only [render, renderRoman_append]
  | indic =>
    simp only [render]
    have hh := htgtind htf
    rw [htf] at hh
    exact renderIndic_append tgt.table _ _ hh

/-- C8: for every resolvable script pair and all texts T1, T2 whose split
point falls on a grapheme boundary (greedy tokenization splits) and does
not interrupt an inherent-vowel/virama sequence on either side of the
hub, convert over the concatenation equals the concatenation of the two
conversions. -/
theorem c8_concatenation_locality (a b : String) (src tgt : ScriptSchema)
    (hsrc : resolveScript a = some src) (htgt : resolveScript b = some tgt)
    (T1 T2 : List Char) (hsafe : SafeSplit src tgt T1 T2) :
    convertE (T1 ++ T2) a b =
        .ok (convertCore src tgt T1 ++ convertCore src tgt T2) ∧
      convertE T1 a b = .ok (convertCore src tgt T1) ∧
      convertE T2 a b = .ok (convertCore src tgt T2) := by
  refine ⟨?_, ?_, ?_⟩ <;> simp only [convertE, hsrc, htgt]
  · rw [convertCore_append_safe src tgt T1 T2 hsafe]

/-- Witness for C8: the word-boundary split "rāma " ++ "iti" towards
devanagari — the right half begins with an independent vowel, which is
safe because the left half ends in an unmapped space, not a consonant. -/
theorem c8_concatenation_locality_witness :
    convertE ("rāma ".toList ++ "iti".toList) "iast" "devanagari" =
        .ok (convertCore iast devanagari "rāma ".toList ++
          convertCore iast devanagari "iti".toList) ∧
      convertE "rāma ".toList "iast" "devanagari" =
        .ok (convertCore iast devanagari "rāma ".toList) ∧
      convertE "iti".toList "iast" "devanagari" =
        .ok (convertCore iast devanagari "iti".toList) :=
  c8_concatenation_locality "iast" "devanagari" iast devanagari
    (by decide) (by decide) "rāma ".toList "iti".toList
    ⟨by decide, fun h => absurd h (by decide), fun _ => by decide⟩


/-! ### Lemmas: round-trip fidelity (C5) -/

theorem findByPh_some {tab : List Entry} {p : String} {f : Entry}
    (h : findByPh tab p = some f) : f ∈ tab ∧ f.phoneme = p := by
  have h' : tab.find? (fun e => e.phoneme == p) = some f := h
  refine ⟨List.mem_of_find?_eq_some h', ?_⟩
  have hx := List.find?_some h'
  simpa using hx

theorem longestEntry_eq_of {tab : List Entry} {text : List Char} {e : Entry}
    (hmem : e ∈ tab) (hpos : 0 < e.grapheme.length)
    (hpfx : isPfx e.grapheme text = true)
    (hmax : ∀ f ∈ tab, isPfx f.grapheme text = true →
      f.grapheme.length ≤ e.grapheme.length)
    (huniq : ∀ f ∈ tab, isPfx f.grapheme text = true →
      f.grapheme.length = e.grapheme.length → f = e) :
    longestEntry tab text = some e := by
  cases h : longestEntry tab text with
  | none => exact absurd (longestEntry_none h e hmem hpos) (by simp [hpfx])
  | some r =>
    have hr := longestEntry_some h
    have h1 := longestEntry_max r h e hmem hpfx hpos
    have h2 := hmax r hr.1 hr.2.2
    exact congrArg some (huniq r hr.1 hr.2.2 (by omega))

theorem isPfx_append_self (p s : List Char) : isPfx p (p ++ s) = true := by
  refine isPfx_iff.mpr ⟨by simp, ?_⟩
  rw [List.take_append_eq_append_take]
  simp

theorem isPfx_of_append_le {p x y : List Char} (h : isPfx p (x ++ y) = true)
    (hle : p.length ≤ x.length) : isPfx p x = true := by
  obtain ⟨h1, h2⟩ := isPfx_iff.mp h
  refine isPfx_iff.mpr ⟨hle, ?_⟩
  rw [List.take_append_eq_append_take, Nat.sub_eq_zero_of_le hle,
    List.take_zero, List.append_nil] at h2
  exact h2

theorem isPfx_append_ext {p x : List Char} (y : List Char)
    (h : isPfx p x = true) : isPfx p (x ++ y) = true := by
  obtain ⟨h1, h2⟩ := isPfx_iff.mp h
  refine isPfx_iff.mpr ⟨by simp only [List.length_append]; omega, ?_⟩
  rw [List.take_append_eq_append_take, Nat.sub_eq_zero_of_le h1,
    List.take_zero, List.append_nil]
  exact h2

theorem romanConv_nil (a b : List Entry) : romanConv a b [] = [] := rfl

theorem romanConv_step {a b : List Entry} {text : List Char} {e f : Entry}
    (hle : longestEntry a text = some e) (hnz : text ≠ [])
    (hf : findByPh b e.phoneme = some f) :
    romanConv a b text =
      f.grapheme ++ romanConv a b (text.drop e.grapheme.length) := by
  rw [romanConv, tokenize_cons_of_some hle hnz]
  simp only [List.map_cons, renderRoman, itemOfToken, hf, romanConv]

theorem romanConv_roundtrip (a b : List Entry)
    (hcov : coveredBy a b = true) (hne : imagesNonempty a b = true)
    (hp2 : maxPat2 b = true) (hinj : graphemeInj b = true)
    (hnov : noOverrun a b = true) (hid : romanIdOk a = true) :
    ∀ (n : Nat) (T : List Char), T.length ≤ n →
      (∀ t ∈ tokenize a T, t.phoneme.isSome = true) →
      romanConv b a (romanConv a b T) = T := by
  intro n
  induction n with
  | zero =>
    intro T hlen _
    have hT : T = [] := by
      cases T with
      | nil => rfl
      | cons c r => simp at hlen
    subst hT
    rfl
  | succ n ih =>
    intro T hlen htok
    cases T with
    | nil => rfl
    | cons c rest0 =>
      cases hle : longestEntry a (c :: rest0) with
      | none =>
        have hmem : (⟨.other, [c], none⟩ : Token) ∈ tokenize a (c :: rest0) := by
          rw [tokenize_cons_of_none hle]
          exact List.mem_cons_self _ _
        simpa using htok _ hmem
      | some e =>
        obtain ⟨hea, hepos, hepfx⟩ := longestEntry_some hle
        have hcovE : (findByPh b e.phoneme).isSome = true := by
          simpa using List.all_eq_true.mp hcov e hea
        obtain ⟨f, hf⟩ := Option.isSome_iff_exists.mp hcovE
        obtain ⟨hfb, hfp⟩ := findByPh_some hf
        have hgpos : 0 < f.grapheme.length := by
          have hx := List.all_eq_true.mp hne e hea
          simp only [imageG, hf, decide_eq_true_eq] at hx
          exact hx
        obtain ⟨R, hRdef⟩ : ∃ R, (c :: rest0).drop e.grapheme.length = R :=
          ⟨_, rfl⟩
        obtain ⟨S, hSdef⟩ : ∃ S, romanConv a b R = S := ⟨_, rfl⟩
        have hTsplit : c :: rest0 = e.grapheme ++ R := by
          rw [← hRdef]
          conv_lhs => rw [← List.take_append_drop e.grapheme.length (c :: rest0)]
          rw [(isPfx_iff.mp hepfx).2]
        have hlenR : R.length ≤ n := by
          rw [← hRdef]
          simp only [List.length_cons] at hlen
          simp only [List.length_drop, List.length_cons]
          omega
        have htokT := tokenize_cons_of_some hle (by simp)
        have htokR : ∀ t ∈ tokenize a R, t.phoneme.isSome = true := by
          intro t ht
          refine htok t ?_
          rw [htokT, hRdef]
          exact List.mem_cons_of_mem _ ht
        have hconv1 : romanConv a b (c :: rest0) = f.grapheme ++ S := by
          rw [← hSdef, ← hRdef]
          exact romanConv_step hle (by simp) hf
        have hmaxB : ∀ w ∈ b, isPfx w.grapheme (f.grapheme ++ S) = true →
            w.grapheme.length ≤ f.grapheme.length := by
          intro w hwb hw
          by_cases hwl : w.grapheme.length ≤ f.grapheme.length
          · exact hwl
          · exfalso
            push_neg at hwl
            cases hRc : R with
            | nil =>
              have hS : S = [] := by
                rw [← hSdef, hRc]
                exact romanConv_nil a b
              rw [hS] at hw
              have hl := (isPfx_iff.mp hw).1
              simp only [List.append_nil] at hl
              omega
            | cons c2 r2 =>
              rw [hRc] at hSdef htokR hTsplit
              cases hle2 : longestEntry a (c2 :: r2) with
              | none =>
                have hmem2 : (⟨.other, [c2], none⟩ : Token) ∈
                    tokenize a (c2 :: r2) := by
                  rw [tokenize_cons_of_none hle2]
                  exact List.mem_cons_self _ _
                simpa using htokR _ hmem2
              | some e1 =>
                obtain ⟨he1a, he1pos, he1pfx⟩ := longestEntry_some hle2
                have hcovE1 : (findByPh b e1.phoneme).isSome = true := by
                  simpa using List.all_eq_true.mp hcov e1 he1a
                obtain ⟨f1, hf1⟩ := Option.isSome_iff_exists.mp hcovE1
                have hg1pos : 0 < f1.grapheme.length := by
                  have hx := List.all_eq_true.mp hne e1 he1a
                  simp only [imageG, hf1, decide_eq_true_eq] at hx
                  exact hx
                have hS1 : S = f1.grapheme ++
                    romanConv a b ((c2 :: r2).drop e1.grapheme.length) := by
                  rw [← hSdef]
                  exact romanConv_step hle2 (by simp) hf1
                have hwle2 : w.grapheme.length ≤ 2 := by
                  simpa using List.all_eq_true.mp hp2 w hwb
                have hwin : isPfx w.grapheme (f.grapheme ++ f1.grapheme) = true := by
                  rw [hS1, ← List.append_assoc] at hw
                  refine isPfx_of_append_le hw ?_
                  simp only [List.length_append]
                  omega
                have hnovw := List.all_eq_true.mp hnov w hwb
                simp only [Bool.or_eq_true, decide_eq_true_eq] at hnovw
                rcases hnovw with hshort | hinner
                · omega
                · have hinner' := List.all_eq_true.mp
                    (List.all_eq_true.mp hinner e hea) e1 he1a
                  simp only [imageG, hf, hf1] at hinner'
                  rw [hwin] at hinner'
                  have hBt : decide (f.grapheme.length < w.grapheme.length)
                      = true := by simp [hwl]
                  rw [hBt] at hinner'
                  simp only [Bool.and_self, Bool.not_true, Bool.false_or,
                    List.any_eq_true, Bool.and_eq_true, decide_eq_true_eq]
                    at hinner'
                  obtain ⟨v, hva, hvpfx, hvlen⟩ := hinner'
                  have hRsplit : c2 :: r2 =
                      e1.grapheme ++ (c2 :: r2).drop e1.grapheme.length := by
                    conv_lhs =>
                      rw [← List.take_append_drop e1.grapheme.length (c2 :: r2)]
                    rw [(isPfx_iff.mp he1pfx).2]
                  have hvT : isPfx v.grapheme (c :: rest0) = true := by
                    rw [hTsplit, hRsplit, ← List.append_assoc]
                    exact isPfx_append_ext _ hvpfx
                  have hvmax := longestEntry_max e hle v hva hvT (by omega)
                  omega
        have huniqB : ∀ w ∈ b, isPfx w.grapheme (f.grapheme ++ S) = true →
            w.grapheme.length = f.grapheme.length → w = f := by
          intro w hwb hw hwlen
          have hwg : w.grapheme = f.grapheme := by
            have h2 := (isPfx_iff.mp hw).2
            have h3 := (isPfx_iff.mp (isPfx_append_self f.grapheme S)).2
            rw [hwlen] at h2
            rw [← h2]
            exact h3
          have hx := List.all_eq_true.mp (List.all_eq_true.mp hinj w hwb) f hfb
          simp only [Bool.or_eq_true, Bool.not_eq_true',
            decide_eq_false_iff_not, decide_eq_true_eq] at hx
          rcases hx with h' | h'
          · exact absurd hwg h'
          · exact h'
        have hleB : longestEntry b (f.grapheme ++ S) = some f :=
          longestEntry_eq_of hfb hgpos (isPfx_append_self _ _) hmaxB huniqB
        have hfa : findByPh a f.phoneme = some e := by
          rw [hfp]
          exact romanIdOk_find hid hea
        have hstep2 : romanConv b a (f.grapheme ++ S) =
            e.grapheme ++ romanConv b a ((f.grapheme ++ S).drop f.grapheme.length) :=
          romanConv_step hleB (by
            intro hcontra
            rw [List.append_eq_nil] at hcontra
            rw [hcontra.1] at hgpos
            simp at hgpos) hfa
        have hdropS : (f.grapheme ++ S).drop f.grapheme.length = S :=
          List.drop_left _ _
        have hihR := ih R hlenR htokR
        rw [hSdef] at hihR
        rw [hconv1, hstep2, hdropS, hihR]
        exact hTsplit.symm

theorem convertCore_roman (src tgt : ScriptSchema) (hs : src.family = .roman)
    (ht : tgt.family = .roman) (T : List Char) :
    convertCore src tgt T = romanConv src.table tgt.table T := by
  rw [convertCore, hs, ht, bridgeFor_same, applyBridge_id]
  rfl

/-- C5: round-trip fidelity for the closed Roman pair nominated by the
spec — for every text tokenizable under IAST, converting IAST → SLP1 and
back returns the original text. -/
theorem c5_round_trip (T : List Char) (h : Tokenizable iast T) :
    ∃ U, convertE T "iast" "slp1" = .ok U ∧
      convertE U "slp1" "iast" = .ok T := by
  have hsrc : resolveScript "iast" = some iast := by decide
  have htgt : resolveScript "slp1" = some slp1 := by decide
  refine ⟨convertCore iast slp1 T, ?_, ?_⟩
  · simp only [convertE, hsrc, htgt]
  · simp only [convertE, hsrc, htgt]
    have hrt := romanConv_roundtrip iast.table slp1.table (by decide) (by decide)
      (by decide) (by decide) (by decide) (by decide) T.length T (le_refl _) h
    rw [convertCore_roman iast slp1 rfl rfl, convertCore_roman slp1 iast rfl rfl,
      hrt]

/-- Witness for C5 at the concrete text "saṃskṛtam". -/
theorem c5_round_trip_witness :
    Tokenizable iast ("saṃskṛtam".toList) ∧
      ∃ U, convertE "saṃskṛtam".toList "iast" "slp1" = .ok U ∧
        convertE U "slp1" "iast" = .ok "saṃskṛtam".toList :=
  ⟨by decide, c5_round_trip _ (by decide)⟩


end Shlesha
